import Mathlib

set_option maxHeartbeats 1000000

/-!
Shallow embedding of the poculum-go binary codec: the library package
`poculum` (pkg/poc_type.go, pkg/decode_poc.go and the encoder file with
encodeValue/encodeString/encodeArray/encodeMap/encodeBytes/dump).

Modelling conventions:
 - a Go byte is a `Nat` (always < 256 on real streams), a byte buffer a
   `List Nat`;
 - a Go string is its list of UTF-8 code units;
 - `float32`/`float64` values are represented by their raw IEEE-754 bit
   patterns, which is exactly what `binary.Write`/`binary.Read` move;
 - a Go `map[string]any` value is an association list whose list order is
   the (runtime-chosen, unspecified) iteration order of the map;
 - `PoculumError` is reduced to its `Type` label: the message strings are
   produced by `fmt.Sprintf` and never influence control flow;
 - the decoder takes an explicit fuel argument for termination; `load`
   passes `data.length + 1`, which is always sufficient because every
   nested `decodeValue` call first consumes at least the one tag byte.
-/

/-- The `Type` label of a `PoculumError` (pkg/poc_type.go). -/
inductive Err where
  | maxRecursionDepth
  | dataTooLarge
  | utf8Error
  | insufficientData
  | unknownTypeId
  | unsupportedType
deriving DecidableEq, Repr

/-- Codec configuration: the three limit fields of `Poculum`
(pkg/poc_type.go). -/
structure Poculum where
  maxRecursionDepth : Nat
  maxStringSize : Nat
  maxContainerItems : Nat
deriving DecidableEq, Repr

/-- `NewPoculum`: all three default limits are `math.MaxUint32`
(pkg/poc_type.go). -/
def NewPoculum : Poculum := ⟨4294967295, 4294967295, 4294967295⟩

/-- `WithLimits` (pkg/poc_type.go). -/
def WithLimits (maxRecursion maxStringSize maxContainerItems : Nat) : Poculum :=
  ⟨maxRecursion, maxStringSize, maxContainerItems⟩

/-- The value model handled by the codec: every Go type with a dedicated
branch in `encodeValue`/`decodeValue` (Go `int`/`uint` inputs are widened
to one of these before being encoded and never come back out of decode). -/
inductive Value where
  | vnil
  | vbool (b : Bool)
  | u8 (n : Nat)
  | u16 (n : Nat)
  | u32 (n : Nat)
  | u64 (n : Nat)
  | i8 (n : Int)
  | i16 (n : Int)
  | i32 (n : Int)
  | i64 (n : Int)
  | f32 (bits : Nat)
  | f64 (bits : Nat)
  | str (s : List Nat)
  | bytes (b : List Nat)
  | list (l : List Value)
  | map (m : List (List Nat × Value))

/-- Big-endian byte string of width `w` for `n`, truncated modulo
`2 ^ (8 * w)` exactly as Go's fixed-width integer conversions do before
`binary.Write`. -/
def beBytes : Nat → Nat → List Nat
  | 0, _ => []
  | w + 1, n => (n / 2 ^ (8 * w)) % 256 :: beBytes w n

/-- Numeric value of a big-endian byte string (`binary.Read` direction). -/
def beToNat (l : List Nat) : Nat := l.foldl (fun acc b => acc * 256 + b) 0

/-- Two's-complement bit pattern of a signed value at the given width
(what `binary.Write` emits for Go's signed integer types). -/
def twosComp (bits : Nat) (i : Int) : Nat := (i % (2 ^ bits : Int)).toNat

/-- Signed reading of a two's-complement bit pattern (what `binary.Read`
into a signed Go type produces). -/
def fromTwos (bits : Nat) (n : Nat) : Int :=
  if n < 2 ^ (bits - 1) then (n : Int) else (n : Int) - (2 ^ bits : Int)

/-- UTF-8 continuation byte (0x80..0xBF). -/
def contB (c : Nat) : Bool := decide (0x80 ≤ c ∧ c ≤ 0xBF)

/-- Go `unicode/utf8.Valid`: RFC 3629 validity — no overlong forms, no
surrogates, scalar values at most U+10FFFF. -/
def utf8Valid : List Nat → Bool
  | [] => true
  | b :: rest =>
    if b ≤ 0x7F then utf8Valid rest
    else if 0xC2 ≤ b ∧ b ≤ 0xDF then
      match rest with
      | c :: rest2 => contB c && utf8Valid rest2
      | [] => false
    else if 0xE0 ≤ b ∧ b ≤ 0xEF then
      match rest with
      | c :: d :: rest3 =>
        (if b = 0xE0 then decide (0xA0 ≤ c ∧ c ≤ 0xBF)
         else if b = 0xED then decide (0x80 ≤ c ∧ c ≤ 0x9F)
         else contB c) && (contB d && utf8Valid rest3)
      | _ => false
    else if 0xF0 ≤ b ∧ b ≤ 0xF4 then
      match rest with
      | c :: d :: e :: rest4 =>
        (if b = 0xF0 then decide (0x90 ≤ c ∧ c ≤ 0xBF)
         else if b = 0xF4 then decide (0x80 ≤ c ∧ c ≤ 0x8F)
         else contB c) && (contB d && (contB e && utf8Valid rest4))
      | _ => false
    else false

/-- Container tag header: the narrowest of the Fix / 16-bit / 32-bit
tiers, shared shape of encodeArray and encodeMap header emission. -/
def ctrHeader (fixBase t16 t32 n : Nat) : List Nat :=
  if n ≤ 15 then [fixBase + n]
  else if n ≤ 0xFFFF then t16 :: beBytes 2 n
  else t32 :: beBytes 4 n

/-- `encodeString`: limit check, UTF-8 check, then FixString / String16 /
String32 tier selection. -/
def encodeString (c : Poculum) (s : List Nat) : Except Err (List Nat) :=
  if s.length > c.maxStringSize then .error .dataTooLarge
  else if ¬ utf8Valid s then .error .utf8Error
  else if s.length ≤ 15 then .ok ((0x30 + s.length) :: s)
  else if s.length ≤ 0xFFFF then .ok (0x41 :: (beBytes 2 s.length ++ s))
  else .ok (0x42 :: (beBytes 4 s.length ++ s))

/-- `encodeBytes`: Bytes8 / Bytes16 / Bytes32 tier selection.  Note that
the source performs no size-limit check on byte blobs. -/
def encodeBytes (_c : Poculum) (data : List Nat) : Except Err (List Nat) :=
  if data.length ≤ 0xFF then .ok (0x91 :: data.length :: data)
  else if data.length ≤ 0xFFFF then .ok (0x92 :: (beBytes 2 data.length ++ data))
  else .ok (0x93 :: (beBytes 4 data.length ++ data))

mutual

/-- `encodeValue`: depth guard, then dispatch on the dynamic type of the
value.  The buffer is modelled as the returned byte list; `dump` discards
the buffer on error, so only the success bytes are observable. -/
def encodeValue (c : Poculum) : Value → Nat → Except Err (List Nat)
  | v, depth =>
    if depth > c.maxRecursionDepth then .error .maxRecursionDepth
    else
      match v with
      | .vnil => .ok [0xA3]
      | .vbool b => .ok [if b then 0xA0 else 0xA1]
      | .u8 n => .ok (0x01 :: beBytes 1 n)
      | .u16 n => .ok (0x02 :: beBytes 2 n)
      | .u32 n => .ok (0x03 :: beBytes 4 n)
      | .u64 n => .ok (0x04 :: beBytes 8 n)
      | .i8 n => .ok (0x11 :: beBytes 1 (twosComp 8 n))
      | .i16 n => .ok (0x12 :: beBytes 2 (twosComp 16 n))
      | .i32 n => .ok (0x13 :: beBytes 4 (twosComp 32 n))
      | .i64 n => .ok (0x14 :: beBytes 8 (twosComp 64 n))
      | .f32 bits => .ok (0x21 :: beBytes 4 bits)
      | .f64 bits => .ok (0x22 :: beBytes 8 bits)
      | .str s => encodeString c s
      | .bytes b => encodeBytes c b
      | .list l => encodeArray c l depth
      | .map m => encodeMap c m depth
termination_by v _ => (sizeOf v, 0)

/-- `encodeArray`: count-limit check, header, then the items each encoded
at `depth + 1`. -/
def encodeArray (c : Poculum) (arr : List Value) (depth : Nat) : Except Err (List Nat) :=
  if arr.length > c.maxContainerItems then .error .dataTooLarge
  else (encodeItems c arr (depth + 1)).map (fun body => ctrHeader 0x50 0x61 0x62 arr.length ++ body)
termination_by (sizeOf arr, 2)

/-- The item loop of `encodeArray`. -/
def encodeItems (c : Poculum) : List Value → Nat → Except Err (List Nat)
  | [], _ => .ok []
  | v :: vs, depth => do
    let b ← encodeValue c v depth
    let bs ← encodeItems c vs depth
    .ok (b ++ bs)
termination_by l _ => (sizeOf l, 1)

/-- `encodeMap`: count-limit check, header, then the key/value pairs in
iteration order; keys go through `encodeString`, values recurse at
`depth + 1`. -/
def encodeMap (c : Poculum) (m : List (List Nat × Value)) (depth : Nat) : Except Err (List Nat) :=
  if m.length > c.maxContainerItems then .error .dataTooLarge
  else (encodeEntries c m (depth + 1)).map (fun body => ctrHeader 0x70 0x81 0x82 m.length ++ body)
termination_by (sizeOf m, 2)

/-- The entry loop of `encodeMap`. -/
def encodeEntries (c : Poculum) : List (List Nat × Value) → Nat → Except Err (List Nat)
  | [], _ => .ok []
  | (k, v) :: es, depth => do
    let kb ← encodeString c k
    let vb ← encodeValue c v depth
    let rest ← encodeEntries c es depth
    .ok (kb ++ vb ++ rest)
termination_by es _ => (sizeOf es, 1)

end

/-- `dump`: encode from depth 0; on error the buffer is dropped and only
the error returned. -/
def dump (c : Poculum) (v : Value) : Except Err (List Nat) := encodeValue c v 0

/-- `binary.Read` of `w` raw bytes from the reader (io.ReadFull
semantics: all of them or InsufficientData). -/
def readN (w : Nat) (input : List Nat) : Except Err (List Nat × List Nat) :=
  if w ≤ input.length then .ok (input.take w, input.drop w) else .error .insufficientData

/-- `decodeString` (pkg/decode_poc.go): zero length short-circuits, then
a full read of `length` bytes, then UTF-8 validation. -/
def decodeString (length : Nat) (input : List Nat) : Except Err (List Nat × List Nat) :=
  if length = 0 then .ok ([], input)
  else if input.length < length then .error .insufficientData
  else if ¬ utf8Valid (input.take length) then .error .utf8Error
  else .ok (input.take length, input.drop length)

/-- `decodeBytes` (pkg/decode_poc.go): `bytes.Reader.Read` reports EOF
whenever no bytes remain — even for a zero-length read — so an exhausted
reader is an error here regardless of `length` (there is no zero-length
short-circuit like the one in `decodeString`). -/
def decodeBytes (length : Nat) (input : List Nat) : Except Err (List Nat × List Nat) :=
  if input.isEmpty then .error .insufficientData
  else if input.length < length then .error .insufficientData
  else .ok (input.take length, input.drop length)

/-- Go map assignment `obj[key] = value`: overwrite the binding if the
key is already present (keeping its place), otherwise add the binding. -/
def updEntry : List (List Nat × Value) → List Nat → Value → List (List Nat × Value)
  | [], k, v => [(k, v)]
  | (k2, v2) :: t, k, v => if k2 = k then (k2, v) :: t else (k2, v2) :: updEntry t k v

mutual

/-- `decodeValue` (pkg/decode_poc.go): depth guard, read the tag byte,
dispatch.  The extra fuel argument only serves termination; `load` always
passes enough. -/
def decodeValue (c : Poculum) : Nat → List Nat → Nat → Except Err (Value × List Nat)
  | 0, _, _ => .error .insufficientData
  | fuel + 1, input, depth =>
    if depth > c.maxRecursionDepth then .error .maxRecursionDepth
    else
      match input with
      | [] => .error .insufficientData
      | t :: r =>
        if t = 0x01 then (readN 1 r).map (fun p => (.u8 (beToNat p.1), p.2))
        else if t = 0x02 then (readN 2 r).map (fun p => (.u16 (beToNat p.1), p.2))
        else if t = 0x03 then (readN 4 r).map (fun p => (.u32 (beToNat p.1), p.2))
        else if t = 0x04 then (readN 8 r).map (fun p => (.u64 (beToNat p.1), p.2))
        else if t = 0x11 then (readN 1 r).map (fun p => (.i8 (fromTwos 8 (beToNat p.1)), p.2))
        else if t = 0x12 then (readN 2 r).map (fun p => (.i16 (fromTwos 16 (beToNat p.1)), p.2))
        else if t = 0x13 then (readN 4 r).map (fun p => (.i32 (fromTwos 32 (beToNat p.1)), p.2))
        else if t = 0x14 then (readN 8 r).map (fun p => (.i64 (fromTwos 64 (beToNat p.1)), p.2))
        else if t = 0x21 then (readN 4 r).map (fun p => (.f32 (beToNat p.1), p.2))
        else if t = 0x22 then (readN 8 r).map (fun p => (.f64 (beToNat p.1), p.2))
        else if t = 0xA0 then .ok (.vbool true, r)
        else if t = 0xA1 then .ok (.vbool false, r)
        else if t = 0xA3 then .ok (.vnil, r)
        else if 0x30 ≤ t ∧ t ≤ 0x3F then
          (decodeString (t - 0x30) r).map (fun p => (.str p.1, p.2))
        else if t = 0x41 then
          (readN 2 r).bind (fun p => (decodeString (beToNat p.1) p.2).map (fun q => (.str q.1, q.2)))
        else if t = 0x42 then
          (readN 4 r).bind (fun p =>
            if beToNat p.1 > c.maxStringSize then .error .dataTooLarge
            else (decodeString (beToNat p.1) p.2).map (fun q => (.str q.1, q.2)))
        else if 0x50 ≤ t ∧ t ≤ 0x5F then decodeArray c fuel (t - 0x50) r depth
        else if t = 0x61 then
          (readN 2 r).bind (fun p => decodeArray c fuel (beToNat p.1) p.2 depth)
        else if t = 0x62 then
          (readN 4 r).bind (fun p => decodeArray c fuel (beToNat p.1) p.2 depth)
        else if 0x70 ≤ t ∧ t ≤ 0x7F then decodeMap c fuel (t - 0x70) r depth
        else if t = 0x81 then
          (readN 2 r).bind (fun p => decodeMap c fuel (beToNat p.1) p.2 depth)
        else if t = 0x82 then
          (readN 4 r).bind (fun p => decodeMap c fuel (beToNat p.1) p.2 depth)
        else if t = 0x91 then
          (readN 1 r).bind (fun p => (decodeBytes (beToNat p.1) p.2).map (fun q => (.bytes q.1, q.2)))
        else if t = 0x92 then
          (readN 2 r).bind (fun p => (decodeBytes (beToNat p.1) p.2).map (fun q => (.bytes q.1, q.2)))
        else if t = 0x93 then
          (readN 4 r).bind (fun p => (decodeBytes (beToNat p.1) p.2).map (fun q => (.bytes q.1, q.2)))
        else .error .unknownTypeId
termination_by fuel _ _ => (fuel, 0, 0)

/-- `decodeArray`: count-limit check then the item loop, each item
decoded at `depth + 1`. -/
def decodeArray (c : Poculum) (fuel : Nat) (length : Nat) (input : List Nat) (depth : Nat) :
    Except Err (Value × List Nat) :=
  if length > c.maxContainerItems then .error .dataTooLarge
  else (decodeItemsD c fuel length input depth).map (fun p => (.list p.1, p.2))
termination_by (fuel, 2, 0)

/-- The item loop of `decodeArray`. -/
def decodeItemsD (c : Poculum) (fuel : Nat) : Nat → List Nat → Nat → Except Err (List Value × List Nat)
  | 0, input, _ => .ok ([], input)
  | n + 1, input, depth => do
    let (v, r) ← decodeValue c fuel input (depth + 1)
    let (vs, r2) ← decodeItemsD c fuel n r depth
    .ok (v :: vs, r2)
termination_by n _ _ => (fuel, 1, n)

/-- `decodeMap`: count-limit check then the entry loop, building a Go map
by repeated assignment. -/
def decodeMap (c : Poculum) (fuel : Nat) (length : Nat) (input : List Nat) (depth : Nat) :
    Except Err (Value × List Nat) :=
  if length > c.maxContainerItems then .error .dataTooLarge
  else (decodeMapItems c fuel length input depth []).map (fun p => (.map p.1, p.2))
termination_by (fuel, 2, 0)

/-- The entry loop of `decodeMap`: key decoded as a full value at
`depth + 1` and required to be a string, then the value, then
`obj[key] = value`. -/
def decodeMapItems (c : Poculum) (fuel : Nat) :
    Nat → List Nat → Nat → List (List Nat × Value) → Except Err (List (List Nat × Value) × List Nat)
  | 0, input, _, acc => .ok (acc, input)
  | n + 1, input, depth, acc => do
    let (kv, r) ← decodeValue c fuel input (depth + 1)
    match kv with
    | .str k => do
      let (v, r2) ← decodeValue c fuel r (depth + 1)
      decodeMapItems c fuel n r2 depth (updEntry acc k v)
    | _ => .error .unsupportedType
termination_by n _ _ _ => (fuel, 1, n)

end

/-- `load`: the empty buffer decodes to the nil value with no error;
otherwise decode one value from a fresh reader (trailing bytes are
discarded with the reader). -/
def load (c : Poculum) (data : List Nat) : Except Err Value :=
  if data.isEmpty then .ok .vnil
  else (decodeValue c (data.length + 1) data 0).map Prod.fst

/-- `DumpPoculum`: encode with the default limits. -/
def DumpPoculum (v : Value) : Except Err (List Nat) := dump NewPoculum v

/-- `LoadPoculum`: decode with the default limits. -/
def LoadPoculum (data : List Nat) : Except Err Value := load NewPoculum data

/-! Derived total functions and predicates used to state properties of
the codec.  `encBytes` is the byte string the encoder emits when no check
fails; `tooDeep` says the depth guard fires somewhere; `wfEnc` collects
the per-node conditions under which no check other than the depth guard
can fail; `canon` replays the decoder's Go-map construction
(`obj[key] = value` per entry, in stream order). -/

/-- The bytes emitted for a string once the checks have passed (the three
tag tiers of `encodeString`). -/
def strEnc (s : List Nat) : List Nat :=
  if s.length ≤ 15 then (0x30 + s.length) :: s
  else if s.length ≤ 0xFFFF then 0x41 :: (beBytes 2 s.length ++ s)
  else 0x42 :: (beBytes 4 s.length ++ s)

/-- The bytes emitted for a byte blob (the three tag tiers of
`encodeBytes`, which never fails). -/
def bytesEnc (b : List Nat) : List Nat :=
  if b.length ≤ 0xFF then 0x91 :: b.length :: b
  else if b.length ≤ 0xFFFF then 0x92 :: (beBytes 2 b.length ++ b)
  else 0x93 :: (beBytes 4 b.length ++ b)

mutual

/-- The byte string `encodeValue` produces when no guard fails. -/
def encBytes : Value → List Nat
  | .vnil => [0xA3]
  | .vbool b => [if b then 0xA0 else 0xA1]
  | .u8 n => 0x01 :: beBytes 1 n
  | .u16 n => 0x02 :: beBytes 2 n
  | .u32 n => 0x03 :: beBytes 4 n
  | .u64 n => 0x04 :: beBytes 8 n
  | .i8 n => 0x11 :: beBytes 1 (twosComp 8 n)
  | .i16 n => 0x12 :: beBytes 2 (twosComp 16 n)
  | .i32 n => 0x13 :: beBytes 4 (twosComp 32 n)
  | .i64 n => 0x14 :: beBytes 8 (twosComp 64 n)
  | .f32 bits => 0x21 :: beBytes 4 bits
  | .f64 bits => 0x22 :: beBytes 8 bits
  | .str s => strEnc s
  | .bytes b => bytesEnc b
  | .list l => ctrHeader 0x50 0x61 0x62 l.length ++ encItemsB l
  | .map m => ctrHeader 0x70 0x81 0x82 m.length ++ encEntriesB m
termination_by v => (sizeOf v, 0)

/-- Concatenated encodings of list items. -/
def encItemsB : List Value → List Nat
  | [] => []
  | v :: vs => encBytes v ++ encItemsB vs
termination_by l => (sizeOf l, 1)

/-- Concatenated encodings of map entries (key string then value). -/
def encEntriesB : List (List Nat × Value) → List Nat
  | [] => []
  | (k, v) :: es => strEnc k ++ (encBytes v ++ encEntriesB es)
termination_by es => (sizeOf es, 1)

end

mutual

/-- Whether the depth guard fires somewhere in the traversal of `v`
starting at depth `d`: at the node itself (`d` beyond the maximum) or
inside a list item / map entry value, which are visited at `d + 1`. -/
def tooDeep (max : Nat) : Value → Nat → Bool
  | v, d =>
    decide (d > max) ||
      match v with
      | .list l => anyDeepItems max l (d + 1)
      | .map m => anyDeepEntries max m (d + 1)
      | _ => false
termination_by v _ => (sizeOf v, 0)

/-- `tooDeep` over the items of a list. -/
def anyDeepItems (max : Nat) : List Value → Nat → Bool
  | [], _ => false
  | v :: vs, d => tooDeep max v d || anyDeepItems max vs d
termination_by l _ => (sizeOf l, 1)

/-- `tooDeep` over the entry values of a map. -/
def anyDeepEntries (max : Nat) : List (List Nat × Value) → Nat → Bool
  | [], _ => false
  | (_, v) :: es, d => tooDeep max v d || anyDeepEntries max es d
termination_by es _ => (sizeOf es, 1)

end

mutual

/-- What decoding the encoder output gives back: identical except that
every map is rebuilt by replaying Go-map assignment entry by entry, so
duplicate keys collapse onto the last occurrence. -/
def canon : Value → Value
  | .list l => .list (canonItems l)
  | .map m => .map (canonEntries m [])
  | v => v
termination_by v => (sizeOf v, 0)

/-- `canon` over the items of a list. -/
def canonItems : List Value → List Value
  | [] => []
  | v :: vs => canon v :: canonItems vs
termination_by l => (sizeOf l, 1)

/-- Replay of the decoder's `obj[key] = value` loop. -/
def canonEntries : List (List Nat × Value) → List (List Nat × Value) → List (List Nat × Value)
  | [], acc => acc
  | (k, v) :: es, acc => canonEntries es (updEntry acc k (canon v))
termination_by es _ => (sizeOf es, 1)

end

mutual

/-- Per-node well-formedness of a value under configuration `c`: numeric
payloads within their Go type's range, strings valid UTF-8 and within the
string limit, byte blobs nonempty (see `decodeBytes`) and within the
string limit, containers within the item limit.  These are exactly the
conditions under which no encoder or decoder check other than the depth
guard can fail. -/
def wfEnc (c : Poculum) : Value → Bool
  | .vnil => true
  | .vbool _ => true
  | .u8 n => decide (n < 2 ^ 8)
  | .u16 n => decide (n < 2 ^ 16)
  | .u32 n => decide (n < 2 ^ 32)
  | .u64 n => decide (n < 2 ^ 64)
  | .i8 n => decide (-(2 ^ 7 : Int) ≤ n ∧ n < 2 ^ 7)
  | .i16 n => decide (-(2 ^ 15 : Int) ≤ n ∧ n < 2 ^ 15)
  | .i32 n => decide (-(2 ^ 31 : Int) ≤ n ∧ n < 2 ^ 31)
  | .i64 n => decide (-(2 ^ 63 : Int) ≤ n ∧ n < 2 ^ 63)
  | .f32 bits => decide (bits < 2 ^ 32)
  | .f64 bits => decide (bits < 2 ^ 64)
  | .str s => utf8Valid s && decide (s.length ≤ c.maxStringSize)
  | .bytes b => decide (b ≠ []) && decide (b.length ≤ c.maxStringSize)
  | .list l => decide (l.length ≤ c.maxContainerItems) && wfItems c l
  | .map m => decide (m.length ≤ c.maxContainerItems) && wfEntries c m
termination_by v => (sizeOf v, 0)

/-- `wfEnc` over the items of a list. -/
def wfItems (c : Poculum) : List Value → Bool
  | [] => true
  | v :: vs => wfEnc c v && wfItems c vs
termination_by l => (sizeOf l, 1)

/-- `wfEnc` over the entries of a map: the key must satisfy the string
conditions and the value must be well-formed. -/
def wfEntries (c : Poculum) : List (List Nat × Value) → Bool
  | [] => true
  | (k, v) :: es =>
    utf8Valid k && (decide (k.length ≤ c.maxStringSize) && (wfEnc c v && wfEntries c es))
termination_by es => (sizeOf es, 1)

end

mutual

/-- All maps anywhere inside the value have pairwise distinct keys (true
of every value that comes from an actual Go `map[string]any`). -/
def uniqKeys : Value → Bool
  | .list l => uniqItems l
  | .map m => decide ((m.map Prod.fst).Nodup) && uniqEntries m
  | _ => true
termination_by v => (sizeOf v, 0)

/-- `uniqKeys` over list items. -/
def uniqItems : List Value → Bool
  | [] => true
  | v :: vs => uniqKeys v && uniqItems vs
termination_by l => (sizeOf l, 1)

/-- `uniqKeys` over map entry values. -/
def uniqEntries : List (List Nat × Value) → Bool
  | [] => true
  | (_, v) :: es => uniqKeys v && uniqEntries es
termination_by es => (sizeOf es, 1)

end

mutual

/-- The value contains no map at any nesting level. -/
def mapFree : Value → Bool
  | .map _ => false
  | .list l => mapFreeItems l
  | _ => true
termination_by v => (sizeOf v, 0)

/-- `mapFree` over list items. -/
def mapFreeItems : List Value → Bool
  | [] => true
  | v :: vs => mapFree v && mapFreeItems vs
termination_by l => (sizeOf l, 1)

end

/-- The configured size ceilings fit the 32-bit wire length fields.  Both
reference configurations (`NewPoculum`'s `math.MaxUint32` triple and the
100 MiB / 1,000,000 one) satisfy this. -/
def smallLimits (c : Poculum) : Prop :=
  c.maxStringSize < 2 ^ 32 ∧ c.maxContainerItems < 2 ^ 32

mutual

/-- Structural equality up to map iteration order: maps are equal as
key/value collections (entries pairwise equivalent after a permutation),
everything else is compared verbatim.  Two runs of the Go encoder on one
logical value see representations related by this relation, the entry
lists differing only by the runtime's iteration order. -/
inductive EquivMod : Value → Value → Prop where
  | vnilE : EquivMod .vnil .vnil
  | vboolE (b : Bool) : EquivMod (.vbool b) (.vbool b)
  | u8E (n : Nat) : EquivMod (.u8 n) (.u8 n)
  | u16E (n : Nat) : EquivMod (.u16 n) (.u16 n)
  | u32E (n : Nat) : EquivMod (.u32 n) (.u32 n)
  | u64E (n : Nat) : EquivMod (.u64 n) (.u64 n)
  | i8E (n : Int) : EquivMod (.i8 n) (.i8 n)
  | i16E (n : Int) : EquivMod (.i16 n) (.i16 n)
  | i32E (n : Int) : EquivMod (.i32 n) (.i32 n)
  | i64E (n : Int) : EquivMod (.i64 n) (.i64 n)
  | f32E (bits : Nat) : EquivMod (.f32 bits) (.f32 bits)
  | f64E (bits : Nat) : EquivMod (.f64 bits) (.f64 bits)
  | strE (s : List Nat) : EquivMod (.str s) (.str s)
  | bytesE (b : List Nat) : EquivMod (.bytes b) (.bytes b)
  | listE (l1 l2 : List Value) :
      EquivItems l1 l2 → EquivMod (.list l1) (.list l2)
  | mapE (m1 mid m2 : List (List Nat × Value)) :
      EquivEntries m1 mid → mid.Perm m2 → EquivMod (.map m1) (.map m2)

/-- Pointwise `EquivMod` on list items. -/
inductive EquivItems : List Value → List Value → Prop where
  | nil : EquivItems [] []
  | cons {v1 v2 : Value} {t1 t2 : List Value} :
      EquivMod v1 v2 → EquivItems t1 t2 → EquivItems (v1 :: t1) (v2 :: t2)

/-- Pointwise key equality and value `EquivMod` on map entries. -/
inductive EquivEntries : List (List Nat × Value) → List (List Nat × Value) → Prop where
  | nil : EquivEntries [] []
  | cons {k : List Nat} {v1 v2 : Value} {t1 t2 : List (List Nat × Value)} :
      EquivMod v1 v2 → EquivEntries t1 t2 → EquivEntries ((k, v1) :: t1) ((k, v2) :: t2)

end

/-- The integer variants of the value model (the kinds encoded through
the UInt/Int tag families). -/
def isIntV : Value → Bool
  | .u8 _ => true
  | .u16 _ => true
  | .u32 _ => true
  | .u64 _ => true
  | .i8 _ => true
  | .i16 _ => true
  | .i32 _ => true
  | .i64 _ => true
  | _ => false


/-! Reduction lemmas for the `Except` plumbing used by the codec. -/

@[simp] theorem exceptBindOk {α β : Type} (a : α) (f : α → Except Err β) :
    (Except.ok a : Except Err α).bind f = f a := rfl

@[simp] theorem exceptBindError {α β : Type} (e : Err) (f : α → Except Err β) :
    (Except.error e : Except Err α).bind f = .error e := rfl

@[simp] theorem exceptMapOk {α β : Type} (a : α) (f : α → β) :
    Except.map f (Except.ok a : Except Err α) = .ok (f a) := rfl

@[simp] theorem exceptMapError {α β : Type} (e : Err) (f : α → β) :
    Except.map f (Except.error e : Except Err α) = .error e := rfl

@[simp] theorem exceptSeqBindOk {α β : Type} (a : α) (f : α → Except Err β) :
    (Except.ok a : Except Err α) >>= f = f a := rfl

@[simp] theorem exceptSeqBindError {α β : Type} (e : Err) (f : α → Except Err β) :
    (Except.error e : Except Err α) >>= f = .error e := rfl

@[simp] theorem exceptPureEq {α : Type} (a : α) :
    (pure a : Except Err α) = .ok a := rfl

/-! Arithmetic facts about the big-endian byte conversions. -/

theorem beBytes_length (w n : Nat) : (beBytes w n).length = w := by
  induction w generalizing n with
  | zero => simp [beBytes]
  | succ w ih => simp [beBytes, ih]

theorem beToNat_foldl_acc (a : Nat) (l : List Nat) :
    l.foldl (fun acc b => acc * 256 + b) a =
      a * 256 ^ l.length + l.foldl (fun acc b => acc * 256 + b) 0 := by
  induction l generalizing a with
  | nil => simp
  | cons x t ih =>
    simp only [List.foldl_cons, List.length_cons]
    rw [ih (a * 256 + x), ih (0 * 256 + x)]
    ring

theorem beToNat_cons (b : Nat) (l : List Nat) :
    beToNat (b :: l) = b * 256 ^ l.length + beToNat l := by
  simp only [beToNat, List.foldl_cons]
  rw [beToNat_foldl_acc (0 * 256 + b)]
  ring_nf

theorem beToNat_beBytes (w n : Nat) : beToNat (beBytes w n) = n % 2 ^ (8 * w) := by
  induction w generalizing n with
  | zero => simp [beBytes, beToNat, Nat.mod_one]
  | succ w ih =>
    rw [beBytes, beToNat_cons, beBytes_length, ih]
    have h1 : (2 : Nat) ^ (8 * (w + 1)) = 2 ^ (8 * w) * 256 := by
      rw [Nat.mul_succ, pow_add]; norm_num
    have h2 : (256 : Nat) ^ w = 2 ^ (8 * w) := by
      rw [show (256 : Nat) = 2 ^ 8 from rfl, ← pow_mul]
    rw [h1, Nat.mod_mul, h2]
    ring

theorem beToNat_beBytes_of_lt {w n : Nat} (h : n < 2 ^ (8 * w)) :
    beToNat (beBytes w n) = n := by
  rw [beToNat_beBytes, Nat.mod_eq_of_lt h]

theorem twosComp8_lt (i : Int) : twosComp 8 i < 2 ^ 8 := by
  unfold twosComp; norm_num; omega

theorem twosComp16_lt (i : Int) : twosComp 16 i < 2 ^ 16 := by
  unfold twosComp; norm_num; omega

theorem twosComp32_lt (i : Int) : twosComp 32 i < 2 ^ 32 := by
  unfold twosComp; norm_num; omega

theorem twosComp64_lt (i : Int) : twosComp 64 i < 2 ^ 64 := by
  unfold twosComp; norm_num; omega

theorem fromTwos_twosComp8 {i : Int} (h1 : -(2 ^ 7 : Int) ≤ i) (h2 : i < 2 ^ 7) :
    fromTwos 8 (twosComp 8 i) = i := by
  unfold fromTwos twosComp; norm_num at *; split <;> omega

theorem fromTwos_twosComp16 {i : Int} (h1 : -(2 ^ 15 : Int) ≤ i) (h2 : i < 2 ^ 15) :
    fromTwos 16 (twosComp 16 i) = i := by
  unfold fromTwos twosComp; norm_num at *; split <;> omega

theorem fromTwos_twosComp32 {i : Int} (h1 : -(2 ^ 31 : Int) ≤ i) (h2 : i < 2 ^ 31) :
    fromTwos 32 (twosComp 32 i) = i := by
  unfold fromTwos twosComp; norm_num at *; split <;> omega

theorem fromTwos_twosComp64 {i : Int} (h1 : -(2 ^ 63 : Int) ≤ i) (h2 : i < 2 ^ 63) :
    fromTwos 64 (twosComp 64 i) = i := by
  unfold fromTwos twosComp; norm_num at *; split <;> omega

/-- Reading exactly the bytes that were just written. -/
theorem readN_exact (bs rest : List Nat) : readN bs.length (bs ++ rest) = .ok (bs, rest) := by
  simp [readN, List.take_left, List.drop_left]

theorem readN_exact_of_length {w : Nat} (bs rest : List Nat) (h : bs.length = w) :
    readN w (bs ++ rest) = .ok (bs, rest) := by
  subst h
  exact readN_exact bs rest

/-! Strong induction on values via `sizeOf`, handling the nested lists. -/

theorem Value.strongInd {motive : Value → Prop}
    (ih : ∀ v, (∀ w, sizeOf w < sizeOf v → motive w) → motive v) : ∀ v, motive v := by
  intro v
  generalize hn : sizeOf v = n
  induction n using Nat.strong_induction_on generalizing v with
  | _ n IH => exact ih v (fun w hw => IH (sizeOf w) (by omega) w rfl)

theorem sizeOf_mem_list {v : Value} {l : List Value} (h : v ∈ l) :
    sizeOf v < sizeOf (Value.list l) := by
  have := List.sizeOf_lt_of_mem h
  simp only [Value.list.sizeOf_spec]
  omega

theorem sizeOf_mem_entries {k : List Nat} {v : Value} {m : List (List Nat × Value)}
    (h : (k, v) ∈ m) : sizeOf v < sizeOf (Value.map m) := by
  have h1 := List.sizeOf_lt_of_mem h
  have h2 : sizeOf (k, v) = 1 + sizeOf k + sizeOf v := rfl
  simp only [Value.map.sizeOf_spec]
  omega

/-! Stepping lemmas: one per decoder dispatch target, so that symbolic
proofs can walk the byte stream without re-eliminating the whole tag
chain each time. -/

theorem decodeString_exact {s : List Nat} (rest : List Nat) (h : utf8Valid s = true) :
    decodeString s.length (s ++ rest) = .ok (s, rest) := by
  by_cases h0 : s.length = 0
  · have hs : s = [] := List.length_eq_zero.mp h0
    subst hs
    simp [decodeString]
  · unfold decodeString
    rw [if_neg h0, if_neg (by simp [List.length_append]), List.take_left]
    rw [if_neg (by simp [h]), List.drop_left]

theorem decodeBytes_exact {b : List Nat} (rest : List Nat) (hb : b ≠ []) :
    decodeBytes b.length (b ++ rest) = .ok (b, rest) := by
  unfold decodeBytes
  rw [if_neg (by simp [List.isEmpty_eq_true, hb]), if_neg (by simp [List.length_append]),
    List.take_left, List.drop_left]

theorem decodeValue_u8 {c : Poculum} {f depth : Nat} (hd : ¬ depth > c.maxRecursionDepth)
    (r : List Nat) :
    decodeValue c (f + 1) (0x01 :: r) depth
      = (readN 1 r).map (fun p => (.u8 (beToNat p.1), p.2)) := by
  simp only [decodeValue]
  rw [if_neg hd]
  norm_num

theorem decodeValue_u16 {c : Poculum} {f depth : Nat} (hd : ¬ depth > c.maxRecursionDepth)
    (r : List Nat) :
    decodeValue c (f + 1) (0x02 :: r) depth
      = (readN 2 r).map (fun p => (.u16 (beToNat p.1), p.2)) := by
  simp only [decodeValue]
  rw [if_neg hd]
  norm_num

theorem decodeValue_u32 {c : Poculum} {f depth : Nat} (hd : ¬ depth > c.maxRecursionDepth)
    (r : List Nat) :
    decodeValue c (f + 1) (0x03 :: r) depth
      = (readN 4 r).map (fun p => (.u32 (beToNat p.1), p.2)) := by
  simp only [decodeValue]
  rw [if_neg hd]
  norm_num

theorem decodeValue_u64 {c : Poculum} {f depth : Nat} (hd : ¬ depth > c.maxRecursionDepth)
    (r : List Nat) :
    decodeValue c (f + 1) (0x04 :: r) depth
      = (readN 8 r).map (fun p => (.u64 (beToNat p.1), p.2)) := by
  simp only [decodeValue]
  rw [if_neg hd]
  norm_num

theorem decodeValue_i8 {c : Poculum} {f depth : Nat} (hd : ¬ depth > c.maxRecursionDepth)
    (r : List Nat) :
    decodeValue c (f + 1) (0x11 :: r) depth
      = (readN 1 r).map (fun p => (.i8 (fromTwos 8 (beToNat p.1)), p.2)) := by
  simp only [decodeValue]
  rw [if_neg hd]
  norm_num

theorem decodeValue_i16 {c : Poculum} {f depth : Nat} (hd : ¬ depth > c.maxRecursionDepth)
    (r : List Nat) :
    decodeValue c (f + 1) (0x12 :: r) depth
      = (readN 2 r).map (fun p => (.i16 (fromTwos 16 (beToNat p.1)), p.2)) := by
  simp only [decodeValue]
  rw [if_neg hd]
  norm_num

theorem decodeValue_i32 {c : Poculum} {f depth : Nat} (hd : ¬ depth > c.maxRecursionDepth)
    (r : List Nat) :
    decodeValue c (f + 1) (0x13 :: r) depth
      = (readN 4 r).map (fun p => (.i32 (fromTwos 32 (beToNat p.1)), p.2)) := by
  simp only [decodeValue]
  rw [if_neg hd]
  norm_num

theorem decodeValue_i64 {c : Poculum} {f depth : Nat} (hd : ¬ depth > c.maxRecursionDepth)
    (r : List Nat) :
    decodeValue c (f + 1) (0x14 :: r) depth
      = (readN 8 r).map (fun p => (.i64 (fromTwos 64 (beToNat p.1)), p.2)) := by
  simp only [decodeValue]
  rw [if_neg hd]
  norm_num

theorem decodeValue_f32 {c : Poculum} {f depth : Nat} (hd : ¬ depth > c.maxRecursionDepth)
    (r : List Nat) :
    decodeValue c (f + 1) (0x21 :: r) depth
      = (readN 4 r).map (fun p => (.f32 (beToNat p.1), p.2)) := by
  simp only [decodeValue]
  rw [if_neg hd]
  norm_num

theorem decodeValue_f64 {c : Poculum} {f depth : Nat} (hd : ¬ depth > c.maxRecursionDepth)
    (r : List Nat) :
    decodeValue c (f + 1) (0x22 :: r) depth
      = (readN 8 r).map (fun p => (.f64 (beToNat p.1), p.2)) := by
  simp only [decodeValue]
  rw [if_neg hd]
  norm_num

theorem decodeValue_true {c : Poculum} {f depth : Nat} (hd : ¬ depth > c.maxRecursionDepth)
    (r : List Nat) :
    decodeValue c (f + 1) (0xA0 :: r) depth = .ok (.vbool true, r) := by
  simp only [decodeValue]
  rw [if_neg hd]
  norm_num

theorem decodeValue_false {c : Poculum} {f depth : Nat} (hd : ¬ depth > c.maxRecursionDepth)
    (r : List Nat) :
    decodeValue c (f + 1) (0xA1 :: r) depth = .ok (.vbool false, r) := by
  simp only [decodeValue]
  rw [if_neg hd]
  norm_num

theorem decodeValue_nil {c : Poculum} {f depth : Nat} (hd : ¬ depth > c.maxRecursionDepth)
    (r : List Nat) :
    decodeValue c (f + 1) (0xA3 :: r) depth = .ok (.vnil, r) := by
  simp only [decodeValue]
  rw [if_neg hd]
  norm_num

theorem decodeValue_fixstr {c : Poculum} {f depth t : Nat} (hd : ¬ depth > c.maxRecursionDepth)
    (h1 : 0x30 ≤ t) (h2 : t ≤ 0x3F) (r : List Nat) :
    decodeValue c (f + 1) (t :: r) depth
      = (decodeString (t - 0x30) r).map (fun p => (.str p.1, p.2)) := by
  simp only [decodeValue]
  rw [if_neg hd]
  repeat rw [if_neg (by omega)]
  rw [if_pos ⟨h1, h2⟩]

theorem decodeValue_str16 {c : Poculum} {f depth : Nat} (hd : ¬ depth > c.maxRecursionDepth)
    (r : List Nat) :
    decodeValue c (f + 1) (0x41 :: r) depth
      = (readN 2 r).bind
          (fun p => (decodeString (beToNat p.1) p.2).map (fun q => (.str q.1, q.2))) := by
  simp only [decodeValue]
  rw [if_neg hd]
  norm_num

theorem decodeValue_str32 {c : Poculum} {f depth : Nat} (hd : ¬ depth > c.maxRecursionDepth)
    (r : List Nat) :
    decodeValue c (f + 1) (0x42 :: r) depth
      = (readN 4 r).bind (fun p =>
          if beToNat p.1 > c.maxStringSize then .error .dataTooLarge
          else (decodeString (beToNat p.1) p.2).map (fun q => (.str q.1, q.2))) := by
  simp only [decodeValue]
  rw [if_neg hd]
  norm_num

theorem decodeValue_fixlist {c : Poculum} {f depth t : Nat} (hd : ¬ depth > c.maxRecursionDepth)
    (h1 : 0x50 ≤ t) (h2 : t ≤ 0x5F) (r : List Nat) :
    decodeValue c (f + 1) (t :: r) depth = decodeArray c f (t - 0x50) r depth := by
  simp only [decodeValue]
  rw [if_neg hd]
  repeat rw [if_neg (by omega)]
  rw [if_pos ⟨h1, h2⟩]

theorem decodeValue_list16 {c : Poculum} {f depth : Nat} (hd : ¬ depth > c.maxRecursionDepth)
    (r : List Nat) :
    decodeValue c (f + 1) (0x61 :: r) depth
      = (readN 2 r).bind (fun p => decodeArray c f (beToNat p.1) p.2 depth) := by
  simp only [decodeValue]
  rw [if_neg hd]
  norm_num

theorem decodeValue_list32 {c : Poculum} {f depth : Nat} (hd : ¬ depth > c.maxRecursionDepth)
    (r : List Nat) :
    decodeValue c (f + 1) (0x62 :: r) depth
      = (readN 4 r).bind (fun p => decodeArray c f (beToNat p.1) p.2 depth) := by
  simp only [decodeValue]
  rw [if_neg hd]
  norm_num

theorem decodeValue_fixmap {c : Poculum} {f depth t : Nat} (hd : ¬ depth > c.maxRecursionDepth)
    (h1 : 0x70 ≤ t) (h2 : t ≤ 0x7F) (r : List Nat) :
    decodeValue c (f + 1) (t :: r) depth = decodeMap c f (t - 0x70) r depth := by
  simp only [decodeValue]
  rw [if_neg hd]
  repeat rw [if_neg (by omega)]
  rw [if_pos ⟨h1, h2⟩]

theorem decodeValue_map16 {c : Poculum} {f depth : Nat} (hd : ¬ depth > c.maxRecursionDepth)
    (r : List Nat) :
    decodeValue c (f + 1) (0x81 :: r) depth
      = (readN 2 r).bind (fun p => decodeMap c f (beToNat p.1) p.2 depth) := by
  simp only [decodeValue]
  rw [if_neg hd]
  norm_num

theorem decodeValue_map32 {c : Poculum} {f depth : Nat} (hd : ¬ depth > c.maxRecursionDepth)
    (r : List Nat) :
    decodeValue c (f + 1) (0x82 :: r) depth
      = (readN 4 r).bind (fun p => decodeMap c f (beToNat p.1) p.2 depth) := by
  simp only [decodeValue]
  rw [if_neg hd]
  norm_num

theorem decodeValue_bytes8 {c : Poculum} {f depth : Nat} (hd : ¬ depth > c.maxRecursionDepth)
    (r : List Nat) :
    decodeValue c (f + 1) (0x91 :: r) depth
      = (readN 1 r).bind
          (fun p => (decodeBytes (beToNat p.1) p.2).map (fun q => (.bytes q.1, q.2))) := by
  simp only [decodeValue]
  rw [if_neg hd]
  norm_num

theorem decodeValue_bytes16 {c : Poculum} {f depth : Nat} (hd : ¬ depth > c.maxRecursionDepth)
    (r : List Nat) :
    decodeValue c (f + 1) (0x92 :: r) depth
      = (readN 2 r).bind
          (fun p => (decodeBytes (beToNat p.1) p.2).map (fun q => (.bytes q.1, q.2))) := by
  simp only [decodeValue]
  rw [if_neg hd]
  norm_num

theorem decodeValue_bytes32 {c : Poculum} {f depth : Nat} (hd : ¬ depth > c.maxRecursionDepth)
    (r : List Nat) :
    decodeValue c (f + 1) (0x93 :: r) depth
      = (readN 4 r).bind
          (fun p => (decodeBytes (beToNat p.1) p.2).map (fun q => (.bytes q.1, q.2))) := by
  simp only [decodeValue]
  rw [if_neg hd]
  norm_num

theorem decodeValue_depth {c : Poculum} {f depth : Nat} (hd : depth > c.maxRecursionDepth)
    (input : List Nat) :
    decodeValue c (f + 1) input depth = .error .maxRecursionDepth := by
  rw [decodeValue.eq_def]
  simp [hd]

theorem beToNat_singleton (b : Nat) : beToNat [b] = b := by
  simp [beToNat]

theorem beToNat_beBytes1 {n : Nat} (h : n < 2 ^ 8) : beToNat (beBytes 1 n) = n :=
  beToNat_beBytes_of_lt (by norm_num; omega)

theorem beToNat_beBytes2 {n : Nat} (h : n < 2 ^ 16) : beToNat (beBytes 2 n) = n :=
  beToNat_beBytes_of_lt (by norm_num; omega)

theorem beToNat_beBytes4 {n : Nat} (h : n < 2 ^ 32) : beToNat (beBytes 4 n) = n :=
  beToNat_beBytes_of_lt (by norm_num; omega)

theorem beToNat_beBytes8 {n : Nat} (h : n < 2 ^ 64) : beToNat (beBytes 8 n) = n :=
  beToNat_beBytes_of_lt (by norm_num; omega)

/-! Equivalence-up-to-map-order collapses to equality on map-free
values: the helper induction used by the determinism claim. -/

theorem equivItems_eq : ∀ (t1 : List Value) {t2 : List Value}, EquivItems t1 t2 →
    (∀ x ∈ t1, ∀ w, mapFree x = true → EquivMod x w → x = w) →
    mapFreeItems t1 = true → t1 = t2 := by
  intro t1
  induction t1 with
  | nil =>
    intro t2 h _ _
    cases h
    rfl
  | cons v vs ih =>
    intro t2 h IH hm
    cases h with
    | cons hv ht =>
      rw [mapFreeItems] at hm
      simp only [Bool.and_eq_true] at hm
      have h1 := IH _ (by simp) _ hm.1 hv
      have h2 := ih ht (fun x hx => IH x (by simp [hx])) hm.2
      rw [h1, h2]

theorem equivMod_mapFree_eq :
    ∀ v w, mapFree v = true → EquivMod v w → v = w := by
  refine Value.strongInd (fun v ih => ?_)
  intro w hm he
  cases he with
  | vnilE => rfl
  | vboolE b => rfl
  | u8E n => rfl
  | u16E n => rfl
  | u32E n => rfl
  | u64E n => rfl
  | i8E n => rfl
  | i16E n => rfl
  | i32E n => rfl
  | i64E n => rfl
  | f32E n => rfl
  | f64E n => rfl
  | strE s => rfl
  | bytesE b => rfl
  | listE l1 l2 hl =>
    rw [mapFree] at hm
    have := equivItems_eq l1 hl (fun x hx => ih x (sizeOf_mem_list hx)) hm
    rw [this]
  | mapE m1 mid m2 h1 h2 =>
    rw [mapFree] at hm
    cases hm

/-- C10: on values containing no Map at any nesting level the encoder is
a function of the logical value alone: any two representations related by
`EquivMod` (which is how two encode calls can see the same logical value,
since only Go map iteration order is unspecified) produce byte-identical
output under the same configuration. -/
theorem encode_deterministic_mapfree (c : Poculum) (v w : Value) (d : Nat)
    (hm : mapFree v = true) (he : EquivMod v w) :
    encodeValue c v d = encodeValue c w d := by
  rw [equivMod_mapFree_eq v w hm he]

theorem encode_deterministic_mapfree_witness :
    mapFree (Value.list [Value.u8 1, Value.str [97]]) = true ∧
    encodeValue NewPoculum (Value.list [Value.u8 1, Value.str [97]]) 0
      = encodeValue NewPoculum (Value.list [Value.u8 1, Value.str [97]]) 0 :=
  ⟨by simp [mapFree, mapFreeItems],
    encode_deterministic_mapfree NewPoculum _ _ 0 (by simp [mapFree, mapFreeItems])
      (EquivMod.listE _ _ (EquivItems.cons (EquivMod.u8E 1)
        (EquivItems.cons (EquivMod.strE [97]) EquivItems.nil)))⟩

/-- C7: decoding a zero-length buffer returns the Null value and no
error (`load` short-circuits before any reader is built). -/
theorem load_empty_is_nil (c : Poculum) : load c [] = .ok .vnil := by
  simp [load]

/-- C6: booleans are tagged directly — `encode(true)` is exactly the
single byte 0xA0 and `encode(false)` exactly 0xA1 — and no integer value
of any width shares an encoding with a boolean, since every integer
encoding starts with a tag in the 0x01–0x04 / 0x11–0x14 families. -/
theorem bool_encoding_distinct (c : Poculum) :
    dump c (.vbool true) = .ok [0xA0] ∧ dump c (.vbool false) = .ok [0xA1] ∧
    ∀ (v : Value) (b : Bool), isIntV v = true → dump c v ≠ dump c (.vbool b) := by
  refine ⟨by simp [dump, encodeValue], by simp [dump, encodeValue], ?_⟩
  intro v b hv
  cases b <;> cases v <;> simp_all [isIntV, dump, encodeValue, beBytes]

theorem bool_encoding_distinct_witness :
    isIntV (Value.u8 0) = true ∧
    dump NewPoculum (Value.u8 0) ≠ dump NewPoculum (Value.vbool true) :=
  ⟨rfl, (bool_encoding_distinct NewPoculum).2.2 (Value.u8 0) true rfl⟩

/-- C3 counterexample: under limits (100, 5, 1000) a 6-byte blob exceeds
the 5-byte ceiling, yet `encodeBytes` performs no size check and the
encode succeeds instead of failing with DataTooLarge. -/
theorem encode_bytes_no_limit_counterexample :
    dump (WithLimits 100 5 1000) (.bytes [1, 2, 3, 4, 5, 6])
      = .ok [0x91, 6, 1, 2, 3, 4, 5, 6] := by
  simp [dump, encodeValue, encodeBytes, WithLimits]

/-- C3 amended: a string longer than maxStringBytes always fails with
DataTooLarge (and `dump` returns no buffer at all on error, by its
shape), but a Bytes value is never size-checked: encoding bytes succeeds
at every length, emitting the tier-selected header and payload. -/
theorem encoder_size_limit_amended (c : Poculum) :
    (∀ s : List Nat, s.length > c.maxStringSize → dump c (.str s) = .error .dataTooLarge) ∧
    (∀ b : List Nat, dump c (.bytes b) = .ok (bytesEnc b)) := by
  constructor
  · intro s hs
    rw [dump, encodeValue]
    rw [if_neg (by omega)]
    rw [encodeString, if_pos hs]
  · intro b
    rw [dump, encodeValue]
    rw [if_neg (by omega)]
    rw [encodeBytes, bytesEnc]
    split
    · rfl
    · split
      · rfl
      · rfl

theorem encoder_size_limit_amended_witness :
    ([1, 2, 3, 4, 5, 6] : List Nat).length > (WithLimits 100 5 1000).maxStringSize ∧
    dump (WithLimits 100 5 1000) (.str [1, 2, 3, 4, 5, 6]) = .error .dataTooLarge ∧
    dump (WithLimits 100 5 1000) (.bytes [9, 9, 9, 9, 9, 9]) = .ok (bytesEnc [9, 9, 9, 9, 9, 9]) :=
  ⟨by decide,
    (encoder_size_limit_amended (WithLimits 100 5 1000)).1 _ (by decide),
    (encoder_size_limit_amended (WithLimits 100 5 1000)).2 _⟩

/-- C4: the encoder always picks the narrowest tag tier that fits.  For
strings: length ≤ 15 gives the FixString tag 0x30+len with the length in
the low nibble; 16..0xFFFF gives String16 (0x41); larger gives String32
(0x42).  For lists and maps the same three tiers on the element count
with bases 0x50/0x61/0x62 and 0x70/0x81/0x82. -/
theorem encoder_minimal_tier (c : Poculum) :
    (∀ (s : List Nat) (bs : List Nat), encodeString c s = .ok bs →
      (s.length ≤ 15 → bs = (0x30 + s.length) :: s) ∧
      (15 < s.length → s.length ≤ 0xFFFF → bs = 0x41 :: (beBytes 2 s.length ++ s)) ∧
      (0xFFFF < s.length → bs = 0x42 :: (beBytes 4 s.length ++ s))) ∧
    (∀ (l : List Value) (d : Nat) (bs : List Nat), encodeArray c l d = .ok bs → ∃ body,
      (l.length ≤ 15 → bs = (0x50 + l.length) :: body) ∧
      (15 < l.length → l.length ≤ 0xFFFF → bs = 0x61 :: (beBytes 2 l.length ++ body)) ∧
      (0xFFFF < l.length → bs = 0x62 :: (beBytes 4 l.length ++ body))) ∧
    (∀ (m : List (List Nat × Value)) (d : Nat) (bs : List Nat), encodeMap c m d = .ok bs → ∃ body,
      (m.length ≤ 15 → bs = (0x70 + m.length) :: body) ∧
      (15 < m.length → m.length ≤ 0xFFFF → bs = 0x81 :: (beBytes 2 m.length ++ body)) ∧
      (0xFFFF < m.length → bs = 0x82 :: (beBytes 4 m.length ++ body))) := by
  refine ⟨?_, ?_, ?_⟩
  · intro s bs h
    rw [encodeString] at h
    split at h
    · cases h
    · split at h
      · cases h
      · split at h
        · next h15 =>
          simp only [Except.ok.injEq] at h
          exact ⟨fun _ => h.symm, fun hgt _ => absurd h15 (by omega),
            fun hgt => absurd h15 (by omega)⟩
        · next h15 =>
          split at h
          · next h16 =>
            simp only [Except.ok.injEq] at h
            exact ⟨fun hle => absurd hle h15, fun _ _ => h.symm,
              fun hgt => absurd h16 (by omega)⟩
          · next h16 =>
            simp only [Except.ok.injEq] at h
            exact ⟨fun hle => absurd hle h15, fun _ hle => absurd hle h16,
              fun _ => h.symm⟩
  · intro l d bs h
    rw [encodeArray] at h
    split at h
    · cases h
    · cases hi : encodeItems c l (d + 1) with
      | error e => rw [hi] at h; cases h
      | ok body =>
        rw [hi] at h
        simp only [exceptMapOk, Except.ok.injEq] at h
        refine ⟨body, ?_, ?_, ?_⟩
        · intro h15
          rw [← h, ctrHeader, if_pos h15]
          simp
        · intro hgt h16
          rw [← h, ctrHeader, if_neg (by omega), if_pos h16]
          simp
        · intro hgt
          rw [← h, ctrHeader, if_neg (by omega), if_neg (by omega)]
          simp
  · intro m d bs h
    rw [encodeMap] at h
    split at h
    · cases h
    · cases hi : encodeEntries c m (d + 1) with
      | error e => rw [hi] at h; cases h
      | ok body =>
        rw [hi] at h
        simp only [exceptMapOk, Except.ok.injEq] at h
        refine ⟨body, ?_, ?_, ?_⟩
        · intro h15
          rw [← h, ctrHeader, if_pos h15]
          simp
        · intro hgt h16
          rw [← h, ctrHeader, if_neg (by omega), if_pos h16]
          simp
        · intro hgt
          rw [← h, ctrHeader, if_neg (by omega), if_neg (by omega)]
          simp

theorem encoder_minimal_tier_witness :
    (encodeString NewPoculum [97, 98] = .ok [0x32, 97, 98] ∧ [0x32, 97, 98]
      = (0x30 + ([97, 98] : List Nat).length) :: [97, 98]) ∧
    ∃ body, encodeArray NewPoculum [.vnil, .vnil, .vnil] 0 = .ok [0x53, 0xA3, 0xA3, 0xA3] ∧
      (([.vnil, .vnil, .vnil] : List Value).length ≤ 15 →
        [0x53, 0xA3, 0xA3, 0xA3] = (0x50 + ([.vnil, .vnil, .vnil] : List Value).length) :: body) := by
  have hs : encodeString NewPoculum [97, 98] = .ok [0x32, 97, 98] := by
    simp [encodeString, NewPoculum, show utf8Valid [97, 98] = true from by decide]
  have ha : encodeArray NewPoculum [.vnil, .vnil, .vnil] 0 = .ok [0x53, 0xA3, 0xA3, 0xA3] := by
    simp [encodeArray, encodeItems, encodeValue, ctrHeader, NewPoculum]
  refine ⟨⟨hs, ((encoder_minimal_tier NewPoculum).1 _ _ hs).1 (by decide)⟩, ?_⟩
  obtain ⟨body, hb⟩ := (encoder_minimal_tier NewPoculum).2.1 _ 0 _ ha
  exact ⟨body, ha, fun h => hb.1 h⟩

/-- C2 counterexample: under limits (100, 5, 1000) a String16 header
declaring 6 bytes resolves a length above the 5-byte ceiling, yet the
decoder consumes and returns the payload instead of failing with
DataTooLarge — only the String32 tier checks `maxStringSize`. -/
theorem decoder_string16_no_limit_counterexample :
    load (WithLimits 100 5 1000) [0x41, 0, 6, 97, 97, 97, 97, 97, 97]
      = .ok (.str [97, 97, 97, 97, 97, 97]) := by
  simp [load, decodeValue, decodeString, readN, beToNat, WithLimits,
    show utf8Valid [97, 97, 97, 97, 97, 97] = true from by decide]

/-- C2 amended: only the String32 tier resolves its length and then
enforces `maxStringSize` before touching the payload (failing with
DataTooLarge even when no payload bytes follow); FixString, String16,
Bytes8, Bytes16 and Bytes32 consume payloads of any declared size the
buffer can supply without consulting the ceiling, as the unconditional
success results for each of those five tiers show. -/
theorem decoder_string_limit_amended (c : Poculum) (f d : Nat)
    (hd : d ≤ c.maxRecursionDepth) :
    (∀ (L : Nat) (rest : List Nat), L < 2 ^ 32 → L > c.maxStringSize →
      decodeValue c (f + 1) (0x42 :: (beBytes 4 L ++ rest)) d = .error .dataTooLarge) ∧
    (∀ (s rest : List Nat), utf8Valid s = true → s.length ≤ 15 →
      decodeValue c (f + 1) ((0x30 + s.length) :: (s ++ rest)) d
        = .ok (.str s, rest)) ∧
    (∀ (s rest : List Nat), utf8Valid s = true → s.length ≤ 0xFFFF →
      decodeValue c (f + 1) (0x41 :: (beBytes 2 s.length ++ (s ++ rest))) d
        = .ok (.str s, rest)) ∧
    (∀ (b rest : List Nat), b ≠ [] → b.length ≤ 0xFF →
      decodeValue c (f + 1) (0x91 :: (b.length :: (b ++ rest))) d
        = .ok (.bytes b, rest)) ∧
    (∀ (b rest : List Nat), b ≠ [] → b.length ≤ 0xFFFF →
      decodeValue c (f + 1) (0x92 :: (beBytes 2 b.length ++ (b ++ rest))) d
        = .ok (.bytes b, rest)) ∧
    (∀ (b rest : List Nat), b ≠ [] → b.length < 2 ^ 32 →
      decodeValue c (f + 1) (0x93 :: (beBytes 4 b.length ++ (b ++ rest))) d
        = .ok (.bytes b, rest)) := by
  have hd2 : ¬ d > c.maxRecursionDepth := by omega
  refine ⟨?_, ?_, ?_, ?_, ?_, ?_⟩
  · intro L rest hL hgt
    rw [decodeValue_str32 hd2, readN_exact_of_length _ _ (beBytes_length 4 L), exceptBindOk,
      beToNat_beBytes4 hL, if_pos hgt]
  · intro s rest hs h15
    rw [decodeValue_fixstr hd2 (by omega) (by omega),
      show 0x30 + s.length - 0x30 = s.length from by omega,
      decodeString_exact rest hs, exceptMapOk]
  · intro s rest hs h16
    rw [decodeValue_str16 hd2, readN_exact_of_length _ _ (beBytes_length 2 s.length),
      exceptBindOk, beToNat_beBytes2 (by omega), decodeString_exact rest hs, exceptMapOk]
  · intro b rest hb h8
    have h1 : (b.length :: (b ++ rest)) = [b.length] ++ (b ++ rest) := rfl
    rw [decodeValue_bytes8 hd2, h1,
      readN_exact_of_length [b.length] (b ++ rest) (by simp), exceptBindOk,
      beToNat_singleton, decodeBytes_exact rest hb, exceptMapOk]
  · intro b rest hb h16
    rw [decodeValue_bytes16 hd2, readN_exact_of_length _ _ (beBytes_length 2 b.length),
      exceptBindOk, beToNat_beBytes2 (by omega), decodeBytes_exact rest hb, exceptMapOk]
  · intro b rest hb h32
    rw [decodeValue_bytes32 hd2, readN_exact_of_length _ _ (beBytes_length 4 b.length),
      exceptBindOk, beToNat_beBytes4 h32, decodeBytes_exact rest hb, exceptMapOk]

theorem decoder_string_limit_amended_witness :
    (0 : Nat) ≤ (WithLimits 100 5 1000).maxRecursionDepth ∧
    (6 : Nat) < 2 ^ 32 ∧ (6 : Nat) > (WithLimits 100 5 1000).maxStringSize ∧
    utf8Valid [97, 97, 97, 97, 97, 97] = true ∧
    ([97, 97, 97, 97, 97, 97] : List Nat).length ≤ 15 ∧
    utf8Valid [104, 105, 104, 105, 104, 105] = true ∧
    ([104, 105, 104, 105, 104, 105] : List Nat).length ≤ 0xFFFF ∧
    ([7, 8, 7, 8, 7, 8] : List Nat) ≠ [] ∧ ([7, 8, 7, 8, 7, 8] : List Nat).length ≤ 0xFF ∧
    ([1, 2, 3, 4, 5, 6] : List Nat) ≠ [] ∧ ([1, 2, 3, 4, 5, 6] : List Nat).length ≤ 0xFFFF ∧
    ([9, 9, 9, 9, 9, 9] : List Nat) ≠ [] ∧ ([9, 9, 9, 9, 9, 9] : List Nat).length < 2 ^ 32 ∧
    decodeValue (WithLimits 100 5 1000) 1 (0x42 :: (beBytes 4 6 ++ [])) 0
      = .error .dataTooLarge ∧
    decodeValue (WithLimits 100 5 1000) 1
        ((0x30 + ([97, 97, 97, 97, 97, 97] : List Nat).length)
          :: ([97, 97, 97, 97, 97, 97] ++ [])) 0
      = .ok (.str [97, 97, 97, 97, 97, 97], []) ∧
    decodeValue (WithLimits 100 5 1000) 1
        (0x41 :: (beBytes 2 ([104, 105, 104, 105, 104, 105] : List Nat).length
          ++ ([104, 105, 104, 105, 104, 105] ++ []))) 0
      = .ok (.str [104, 105, 104, 105, 104, 105], []) ∧
    decodeValue (WithLimits 100 5 1000) 1
        (0x91 :: (([7, 8, 7, 8, 7, 8] : List Nat).length :: ([7, 8, 7, 8, 7, 8] ++ []))) 0
      = .ok (.bytes [7, 8, 7, 8, 7, 8], []) ∧
    decodeValue (WithLimits 100 5 1000) 1
        (0x92 :: (beBytes 2 ([1, 2, 3, 4, 5, 6] : List Nat).length
          ++ ([1, 2, 3, 4, 5, 6] ++ []))) 0
      = .ok (.bytes [1, 2, 3, 4, 5, 6], []) ∧
    decodeValue (WithLimits 100 5 1000) 1
        (0x93 :: (beBytes 4 ([9, 9, 9, 9, 9, 9] : List Nat).length
          ++ ([9, 9, 9, 9, 9, 9] ++ []))) 0
      = .ok (.bytes [9, 9, 9, 9, 9, 9], []) :=
  ⟨by decide, by decide, by decide, by decide, by decide, by decide, by decide, by decide,
    by decide, by decide, by decide, by decide, by decide,
    (decoder_string_limit_amended (WithLimits 100 5 1000) 0 0 (by decide)).1 6 [] (by decide)
      (by decide),
    (decoder_string_limit_amended (WithLimits 100 5 1000) 0 0 (by decide)).2.1
      [97, 97, 97, 97, 97, 97] [] (by decide) (by decide),
    (decoder_string_limit_amended (WithLimits 100 5 1000) 0 0 (by decide)).2.2.1
      [104, 105, 104, 105, 104, 105] [] (by decide) (by decide),
    (decoder_string_limit_amended (WithLimits 100 5 1000) 0 0 (by decide)).2.2.2.1
      [7, 8, 7, 8, 7, 8] [] (by decide) (by decide),
    (decoder_string_limit_amended (WithLimits 100 5 1000) 0 0 (by decide)).2.2.2.2.1
      [1, 2, 3, 4, 5, 6] [] (by decide) (by decide),
    (decoder_string_limit_amended (WithLimits 100 5 1000) 0 0 (by decide)).2.2.2.2.2
      [9, 9, 9, 9, 9, 9] [] (by decide) (by decide)⟩

/-- C1 counterexample: the empty Bytes value encodes to [0x91, 0x00], but
decoding that buffer fails with InsufficientData — `bytes.Reader.Read`
reports EOF even for the zero-length read, and `decodeBytes` (unlike
`decodeString`) has no zero-length short-circuit — so
`decode(encode(Bytes []))` is an error, not `Bytes []`. -/
theorem roundtrip_empty_bytes_counterexample :
    dump NewPoculum (.bytes []) = .ok [0x91, 0] ∧
    load NewPoculum [0x91, 0] = .error .insufficientData := by
  constructor
  · simp [dump, encodeValue, encodeBytes, NewPoculum]
  · simp [load, decodeValue, readN, decodeBytes, beToNat, NewPoculum]

/-- C5 counterexample: with maxDepth = 1 the value [[ ]] — a list nested
inside a list, i.e. nesting depth maxDepth+1 = 2 — both encodes and
decodes successfully, because the depth guard only fires on nodes visited
at depth > maxDepth and the inner (empty) list has no children to visit:
neither path fails with RecursionLimit as the claim requires. -/
theorem empty_container_depth_counterexample :
    dump (WithLimits 1 100 100) (.list [.list []]) = .ok [0x51, 0x50] ∧
    load (WithLimits 1 100 100) [0x51, 0x50] = .ok (.list [.list []]) := by
  constructor
  · simp [dump, encodeValue, encodeArray, encodeItems, ctrHeader, WithLimits]
  · simp [load, decodeValue, decodeArray, decodeItemsD, WithLimits]

/-! Helper characterizations used by the round-trip development. -/

theorem strEnc_fix {s : List Nat} (h : s.length ≤ 15) :
    strEnc s = (0x30 + s.length) :: s := by
  rw [strEnc, if_pos h]

theorem strEnc_s16 {s : List Nat} (h1 : ¬ s.length ≤ 15) (h2 : s.length ≤ 0xFFFF) :
    strEnc s = 0x41 :: (beBytes 2 s.length ++ s) := by
  rw [strEnc, if_neg h1, if_pos h2]

theorem strEnc_s32 {s : List Nat} (h2 : ¬ s.length ≤ 0xFFFF) :
    strEnc s = 0x42 :: (beBytes 4 s.length ++ s) := by
  rw [strEnc, if_neg (by omega), if_neg h2]

theorem encodeString_ok {c : Poculum} {s : List Nat} (h1 : utf8Valid s = true)
    (h2 : s.length ≤ c.maxStringSize) : encodeString c s = .ok (strEnc s) := by
  rw [encodeString, if_neg (by omega), if_neg (by simp [h1]), strEnc]
  split
  · rfl
  · split
    · rfl
    · rfl

theorem encodeBytes_ok (c : Poculum) (b : List Nat) : encodeBytes c b = .ok (bytesEnc b) := by
  rw [encodeBytes, bytesEnc]
  split
  · rfl
  · split
    · rfl
    · rfl

theorem strEnc_ne_nil (s : List Nat) : strEnc s ≠ [] := by
  rw [strEnc]
  split
  · simp
  · split
    · simp
    · simp

theorem bytesEnc_ne_nil (b : List Nat) : bytesEnc b ≠ [] := by
  rw [bytesEnc]
  split
  · simp
  · split
    · simp
    · simp

theorem ctrHeader_ne_nil (a b c n : Nat) : ctrHeader a b c n ≠ [] := by
  rw [ctrHeader]
  split
  · simp
  · split
    · simp
    · simp

theorem encBytes_ne_nil (v : Value) : encBytes v ≠ [] := by
  cases v <;> rw [encBytes] <;>
    simp [strEnc_ne_nil, bytesEnc_ne_nil, ctrHeader_ne_nil]

/-- Decoding the exact encoding of a string value (all three tiers). -/
theorem decode_str_char {c : Poculum} (hsmall : smallLimits c) {k : List Nat}
    (hk1 : utf8Valid k = true) (hk2 : k.length ≤ c.maxStringSize) {f d : Nat}
    (hd2 : ¬ d > c.maxRecursionDepth) (rest : List Nat) :
    decodeValue c (f + 1) (strEnc k ++ rest) d = .ok (.str k, rest) := by
  obtain ⟨hS, hC⟩ := hsmall
  by_cases h15 : k.length ≤ 15
  · rw [strEnc_fix h15, List.cons_append,
      decodeValue_fixstr hd2 (by omega) (by omega) (k ++ rest)]
    have he : 0x30 + k.length - 0x30 = k.length := by omega
    rw [he, decodeString_exact rest hk1, exceptMapOk]
  · by_cases h16 : k.length ≤ 0xFFFF
    · rw [strEnc_s16 h15 h16, List.cons_append, List.append_assoc,
        decodeValue_str16 hd2, readN_exact_of_length _ _ (beBytes_length 2 k.length),
        exceptBindOk, beToNat_beBytes2 (by omega), decodeString_exact rest hk1, exceptMapOk]
    · rw [strEnc_s32 h16, List.cons_append, List.append_assoc,
        decodeValue_str32 hd2, readN_exact_of_length _ _ (beBytes_length 4 k.length),
        exceptBindOk, beToNat_beBytes4 (by omega), if_neg (by omega),
        decodeString_exact rest hk1, exceptMapOk]

/-- Decoding the exact encoding of a bytes value (all three tiers); the
payload must be nonempty because of the EOF behaviour of zero-length
reads. -/
theorem decode_bytes_char {c : Poculum} (hsmall : smallLimits c) {b : List Nat}
    (hb : b ≠ []) (hlen : b.length ≤ c.maxStringSize) {f d : Nat}
    (hd2 : ¬ d > c.maxRecursionDepth) (rest : List Nat) :
    decodeValue c (f + 1) (bytesEnc b ++ rest) d = .ok (.bytes b, rest) := by
  obtain ⟨hS, hC⟩ := hsmall
  by_cases h8 : b.length ≤ 0xFF
  · rw [bytesEnc, if_pos h8, List.cons_append,
      show (b.length :: b) ++ rest = [b.length] ++ (b ++ rest) from by simp,
      decodeValue_bytes8 hd2, readN_exact_of_length [b.length] (b ++ rest) (by simp),
      exceptBindOk, beToNat_singleton, decodeBytes_exact rest hb, exceptMapOk]
  · by_cases h16 : b.length ≤ 0xFFFF
    · rw [bytesEnc, if_neg h8, if_pos h16, List.cons_append, List.append_assoc,
        decodeValue_bytes16 hd2, readN_exact_of_length _ _ (beBytes_length 2 b.length),
        exceptBindOk, beToNat_beBytes2 (by omega), decodeBytes_exact rest hb, exceptMapOk]
    · rw [bytesEnc, if_neg h8, if_neg h16, List.cons_append, List.append_assoc,
        decodeValue_bytes32 hd2, readN_exact_of_length _ _ (beBytes_length 4 b.length),
        exceptBindOk, beToNat_beBytes4 (by omega), decodeBytes_exact rest hb, exceptMapOk]

theorem ctrHeader_length_pos (a b c n : Nat) : 1 ≤ (ctrHeader a b c n).length := by
  rw [ctrHeader]
  split
  · simp
  · split
    · simp
    · simp

/-- The depth guard fires at any node visited beyond the maximum. -/
theorem tooDeep_of_depth {max d : Nat} (h : d > max) (v : Value) :
    tooDeep max v d = true := by
  cases v <;> rw [tooDeep] <;> simp [h]

/-- Item loop of the decoder on the exact encoder output, parameterized
by the induction hypothesis for the members. -/
theorem decodeItems_char (c : Poculum) (l : List Value)
    (IH : ∀ v ∈ l, wfEnc c v = true → ∀ (d F : Nat) (rest : List Nat),
      F ≥ (encBytes v).length + rest.length + 1 →
      decodeValue c F (encBytes v ++ rest) d
        = if tooDeep c.maxRecursionDepth v d then .error .maxRecursionDepth
          else .ok (canon v, rest)) :
    wfItems c l = true → ∀ (d f : Nat) (rest : List Nat),
      f ≥ (encItemsB l).length + rest.length + 1 →
      decodeItemsD c f l.length (encItemsB l ++ rest) d
        = if anyDeepItems c.maxRecursionDepth l (d + 1) then .error .maxRecursionDepth
          else .ok (canonItems l, rest) := by
  induction l with
  | nil =>
    intro _ d f rest _
    rw [encItemsB]
    simp [decodeItemsD, anyDeepItems, canonItems]
  | cons v vs ih =>
    intro hw d f rest hf
    rw [wfItems] at hw
    simp only [Bool.and_eq_true] at hw
    rw [encItemsB, List.append_assoc, List.length_cons, decodeItemsD]
    have hlen : (encItemsB (v :: vs)).length
        = (encBytes v).length + (encItemsB vs).length := by
      rw [encItemsB, List.length_append]
    have hv := IH v (by simp) hw.1 (d + 1) f (encItemsB vs ++ rest)
      (by rw [encItemsB] at hf; simp only [List.length_append] at hf ⊢; omega)
    rw [hv]
    by_cases hdeep : tooDeep c.maxRecursionDepth v (d + 1)
    · rw [if_pos hdeep]
      rw [anyDeepItems]
      simp [hdeep]
    · rw [if_neg hdeep]
      simp only [exceptSeqBindOk]
      have hrec := ih (fun x hx => IH x (by simp [hx])) hw.2 d f rest
        (by rw [encItemsB] at hf; simp only [List.length_append] at hf ⊢; omega)
      rw [hrec]
      by_cases hdeep2 : anyDeepItems c.maxRecursionDepth vs (d + 1)
      · rw [if_pos hdeep2]
        rw [anyDeepItems]
        simp [hdeep, hdeep2]
      · rw [if_neg hdeep2]
        simp only [exceptSeqBindOk]
        rw [anyDeepItems, canonItems]
        simp [hdeep, hdeep2]

/-- Entry loop of the decoder on the exact encoder output. -/
theorem decodeEntries_char (c : Poculum) (hsmall : smallLimits c)
    (m : List (List Nat × Value))
    (IH : ∀ e ∈ m, wfEnc c e.2 = true → ∀ (d F : Nat) (rest : List Nat),
      F ≥ (encBytes e.2).length + rest.length + 1 →
      decodeValue c F (encBytes e.2 ++ rest) d
        = if tooDeep c.maxRecursionDepth e.2 d then .error .maxRecursionDepth
          else .ok (canon e.2, rest)) :
    wfEntries c m = true → ∀ (d f : Nat) (rest : List Nat) (acc : List (List Nat × Value)),
      f ≥ (encEntriesB m).length + rest.length + 1 →
      decodeMapItems c f m.length (encEntriesB m ++ rest) d acc
        = if anyDeepEntries c.maxRecursionDepth m (d + 1) then .error .maxRecursionDepth
          else .ok (canonEntries m acc, rest) := by
  induction m with
  | nil =>
    intro _ d f rest acc _
    rw [encEntriesB]
    simp [decodeMapItems, anyDeepEntries, canonEntries]
  | cons e es ih =>
    obtain ⟨k, v⟩ := e
    intro hw d f rest acc hf
    rw [wfEntries] at hw
    simp only [Bool.and_eq_true, decide_eq_true_eq] at hw
    obtain ⟨hk1, hk2, hwv, hwes⟩ := hw
    rw [encEntriesB, List.append_assoc, List.append_assoc, List.length_cons, decodeMapItems]
    obtain ⟨f2, rfl⟩ : ∃ f2, f = f2 + 1 := ⟨f - 1, by omega⟩
    by_cases hdd : d + 1 > c.maxRecursionDepth
    · rw [decodeValue_depth hdd]
      simp only [exceptSeqBindError]
      rw [anyDeepEntries, tooDeep_of_depth hdd v]
      simp
    · rw [decode_str_char hsmall hk1 hk2 hdd]
      simp only [exceptSeqBindOk]
      have hv := IH (k, v) (by simp) hwv (d + 1) (f2 + 1) (encEntriesB es ++ rest)
        (by rw [encEntriesB] at hf; simp only [List.length_append] at hf ⊢; omega)
      rw [hv]
      by_cases hdeep : tooDeep c.maxRecursionDepth v (d + 1)
      · rw [if_pos hdeep]
        simp only [exceptSeqBindError]
        rw [anyDeepEntries]
        simp [hdeep]
      · rw [if_neg hdeep]
        simp only [exceptSeqBindOk]
        have hrec := ih (fun x hx => IH x (by simp [hx])) hwes d (f2 + 1) rest
          (updEntry acc k (canon v))
          (by rw [encEntriesB] at hf; simp only [List.length_append] at hf ⊢; omega)
        rw [hrec]
        by_cases hdeep2 : anyDeepEntries c.maxRecursionDepth es (d + 1)
        · rw [if_pos hdeep2]
          rw [anyDeepEntries]
          simp [hdeep, hdeep2]
        · rw [if_neg hdeep2]
          rw [anyDeepEntries, canonEntries]
          simp [hdeep, hdeep2]

/-! Per-constructor reductions of `tooDeep` and `canon` (the generated
equations for the catch-all match arms carry side conditions, so we
establish clean rewrite rules once). -/

theorem tooDeep_vnil {max d : Nat} :
    tooDeep max (.vnil) d = decide (d > max) := by
  rw [tooDeep] <;> simp

theorem tooDeep_vbool {max d : Nat} (b : Bool) :
    tooDeep max (.vbool b) d = decide (d > max) := by
  rw [tooDeep] <;> simp

theorem tooDeep_u8 {max d : Nat} (n : Nat) :
    tooDeep max (.u8 n) d = decide (d > max) := by
  rw [tooDeep] <;> simp

theorem tooDeep_u16 {max d : Nat} (n : Nat) :
    tooDeep max (.u16 n) d = decide (d > max) := by
  rw [tooDeep] <;> simp

theorem tooDeep_u32 {max d : Nat} (n : Nat) :
    tooDeep max (.u32 n) d = decide (d > max) := by
  rw [tooDeep] <;> simp

theorem tooDeep_u64 {max d : Nat} (n : Nat) :
    tooDeep max (.u64 n) d = decide (d > max) := by
  rw [tooDeep] <;> simp

theorem tooDeep_i8 {max d : Nat} (n : Int) :
    tooDeep max (.i8 n) d = decide (d > max) := by
  rw [tooDeep] <;> simp

theorem tooDeep_i16 {max d : Nat} (n : Int) :
    tooDeep max (.i16 n) d = decide (d > max) := by
  rw [tooDeep] <;> simp

theorem tooDeep_i32 {max d : Nat} (n : Int) :
    tooDeep max (.i32 n) d = decide (d > max) := by
  rw [tooDeep] <;> simp

theorem tooDeep_i64 {max d : Nat} (n : Int) :
    tooDeep max (.i64 n) d = decide (d > max) := by
  rw [tooDeep] <;> simp

theorem tooDeep_f32 {max d : Nat} (bits : Nat) :
    tooDeep max (.f32 bits) d = decide (d > max) := by
  rw [tooDeep] <;> simp

theorem tooDeep_f64 {max d : Nat} (bits : Nat) :
    tooDeep max (.f64 bits) d = decide (d > max) := by
  rw [tooDeep] <;> simp

theorem tooDeep_str {max d : Nat} (s : List Nat) :
    tooDeep max (.str s) d = decide (d > max) := by
  rw [tooDeep] <;> simp

theorem tooDeep_bytes {max d : Nat} (b : List Nat) :
    tooDeep max (.bytes b) d = decide (d > max) := by
  rw [tooDeep] <;> simp

theorem canon_vnil : canon (.vnil) = .vnil := by
  rw [canon] <;> simp

theorem canon_vbool (b : Bool) : canon (.vbool b) = .vbool b := by
  rw [canon] <;> simp

theorem canon_u8 (n : Nat) : canon (.u8 n) = .u8 n := by
  rw [canon] <;> simp

theorem canon_u16 (n : Nat) : canon (.u16 n) = .u16 n := by
  rw [canon] <;> simp

theorem canon_u32 (n : Nat) : canon (.u32 n) = .u32 n := by
  rw [canon] <;> simp

theorem canon_u64 (n : Nat) : canon (.u64 n) = .u64 n := by
  rw [canon] <;> simp

theorem canon_i8 (n : Int) : canon (.i8 n) = .i8 n := by
  rw [canon] <;> simp

theorem canon_i16 (n : Int) : canon (.i16 n) = .i16 n := by
  rw [canon] <;> simp

theorem canon_i32 (n : Int) : canon (.i32 n) = .i32 n := by
  rw [canon] <;> simp

theorem canon_i64 (n : Int) : canon (.i64 n) = .i64 n := by
  rw [canon] <;> simp

theorem canon_f32 (bits : Nat) : canon (.f32 bits) = .f32 bits := by
  rw [canon] <;> simp

theorem canon_f64 (bits : Nat) : canon (.f64 bits) = .f64 bits := by
  rw [canon] <;> simp

theorem canon_str (s : List Nat) : canon (.str s) = .str s := by
  rw [canon] <;> simp

theorem canon_bytes (b : List Nat) : canon (.bytes b) = .bytes b := by
  rw [canon] <;> simp

theorem tooDeep_list {max d : Nat} (l : List Value) :
    tooDeep max (.list l) d = (decide (d > max) || anyDeepItems max l (d + 1)) := by
  rw [tooDeep]

theorem tooDeep_map {max d : Nat} (m : List (List Nat × Value)) :
    tooDeep max (.map m) d = (decide (d > max) || anyDeepEntries max m (d + 1)) := by
  rw [tooDeep]

theorem canon_list (l : List Value) : canon (.list l) = .list (canonItems l) := by
  rw [canon]

theorem canon_map (m : List (List Nat × Value)) :
    canon (.map m) = .map (canonEntries m []) := by
  rw [canon]

/-- Master decoder characterization: on the exact byte string the
encoder emits for a well-formed value, the decoder either trips the
depth guard (returning RecursionLimit) exactly when `tooDeep` says so,
or returns the canonicalized value and the untouched remainder of the
buffer. -/
theorem decode_encBytes_char (c : Poculum) (hsmall : smallLimits c) :
    ∀ (v : Value), wfEnc c v = true → ∀ (d F : Nat) (rest : List Nat),
      F ≥ (encBytes v).length + rest.length + 1 →
      decodeValue c F (encBytes v ++ rest) d
        = if tooDeep c.maxRecursionDepth v d then .error .maxRecursionDepth
          else .ok (canon v, rest) := by
  obtain ⟨hS, hC⟩ := hsmall
  refine Value.strongInd (fun v ih => ?_)
  intro hw d F rest hF
  obtain ⟨f, rfl⟩ : ∃ f, F = f + 1 := ⟨F - 1, by omega⟩
  by_cases hdd : d > c.maxRecursionDepth
  · rw [decodeValue_depth hdd, tooDeep_of_depth hdd v]
    simp
  · cases v with
    | vnil =>
      rw [encBytes, List.singleton_append, decodeValue_nil hdd, tooDeep_vnil, canon_vnil]
      simp [hdd]
    | vbool b =>
      cases b
      · rw [show encBytes (Value.vbool false) = [0xA1] from by rw [encBytes]; simp,
          List.singleton_append, decodeValue_false hdd, tooDeep_vbool, canon_vbool]
        simp [hdd]
      · rw [show encBytes (Value.vbool true) = [0xA0] from by rw [encBytes]; simp,
          List.singleton_append, decodeValue_true hdd, tooDeep_vbool, canon_vbool]
        simp [hdd]
    | u8 n =>
      rw [wfEnc, decide_eq_true_eq] at hw
      rw [encBytes, List.cons_append, decodeValue_u8 hdd,
        readN_exact_of_length _ _ (beBytes_length 1 n), exceptMapOk,
        beToNat_beBytes1 hw, tooDeep_u8, canon_u8]
      simp [hdd]
    | u16 n =>
      rw [wfEnc, decide_eq_true_eq] at hw
      rw [encBytes, List.cons_append, decodeValue_u16 hdd,
        readN_exact_of_length _ _ (beBytes_length 2 n), exceptMapOk,
        beToNat_beBytes2 hw, tooDeep_u16, canon_u16]
      simp [hdd]
    | u32 n =>
      rw [wfEnc, decide_eq_true_eq] at hw
      rw [encBytes, List.cons_append, decodeValue_u32 hdd,
        readN_exact_of_length _ _ (beBytes_length 4 n), exceptMapOk,
        beToNat_beBytes4 hw, tooDeep_u32, canon_u32]
      simp [hdd]
    | u64 n =>
      rw [wfEnc, decide_eq_true_eq] at hw
      rw [encBytes, List.cons_append, decodeValue_u64 hdd,
        readN_exact_of_length _ _ (beBytes_length 8 n), exceptMapOk,
        beToNat_beBytes8 hw, tooDeep_u64, canon_u64]
      simp [hdd]
    | i8 n =>
      rw [wfEnc, decide_eq_true_eq] at hw
      rw [encBytes, List.cons_append, decodeValue_i8 hdd,
        readN_exact_of_length _ _ (beBytes_length 1 _), exceptMapOk,
        beToNat_beBytes1 (twosComp8_lt n), fromTwos_twosComp8 hw.1 hw.2,
        tooDeep_i8, canon_i8]
      simp [hdd]
    | i16 n =>
      rw [wfEnc, decide_eq_true_eq] at hw
      rw [encBytes, List.cons_append, decodeValue_i16 hdd,
        readN_exact_of_length _ _ (beBytes_length 2 _), exceptMapOk,
        beToNat_beBytes2 (twosComp16_lt n), fromTwos_twosComp16 hw.1 hw.2,
        tooDeep_i16, canon_i16]
      simp [hdd]
    | i32 n =>
      rw [wfEnc, decide_eq_true_eq] at hw
      rw [encBytes, List.cons_append, decodeValue_i32 hdd,
        readN_exact_of_length _ _ (beBytes_length 4 _), exceptMapOk,
        beToNat_beBytes4 (twosComp32_lt n), fromTwos_twosComp32 hw.1 hw.2,
        tooDeep_i32, canon_i32]
      simp [hdd]
    | i64 n =>
      rw [wfEnc, decide_eq_true_eq] at hw
      rw [encBytes, List.cons_append, decodeValue_i64 hdd,
        readN_exact_of_length _ _ (beBytes_length 8 _), exceptMapOk,
        beToNat_beBytes8 (twosComp64_lt n), fromTwos_twosComp64 hw.1 hw.2,
        tooDeep_i64, canon_i64]
      simp [hdd]
    | f32 bits =>
      rw [wfEnc, decide_eq_true_eq] at hw
      rw [encBytes, List.cons_append, decodeValue_f32 hdd,
        readN_exact_of_length _ _ (beBytes_length 4 bits), exceptMapOk,
        beToNat_beBytes4 hw, tooDeep_f32, canon_f32]
      simp [hdd]
    | f64 bits =>
      rw [wfEnc, decide_eq_true_eq] at hw
      rw [encBytes, List.cons_append, decodeValue_f64 hdd,
        readN_exact_of_length _ _ (beBytes_length 8 bits), exceptMapOk,
        beToNat_beBytes8 hw, tooDeep_f64, canon_f64]
      simp [hdd]
    | str s =>
      rw [wfEnc, Bool.and_eq_true, decide_eq_true_eq] at hw
      rw [encBytes, decode_str_char ⟨hS, hC⟩ hw.1 hw.2 hdd, tooDeep_str, canon_str]
      simp [hdd]
    | bytes b =>
      rw [wfEnc, Bool.and_eq_true, decide_eq_true_eq, decide_eq_true_eq] at hw
      rw [encBytes, decode_bytes_char ⟨hS, hC⟩ hw.1 hw.2 hdd, tooDeep_bytes, canon_bytes]
      simp [hdd]
    | list l =>
      rw [wfEnc, Bool.and_eq_true, decide_eq_true_eq] at hw
      obtain ⟨hcount, hitems⟩ := hw
      have hIH : ∀ x ∈ l, wfEnc c x = true → ∀ (d2 F2 : Nat) (rest2 : List Nat),
          F2 ≥ (encBytes x).length + rest2.length + 1 →
          decodeValue c F2 (encBytes x ++ rest2) d2
            = if tooDeep c.maxRecursionDepth x d2 then .error .maxRecursionDepth
              else .ok (canon x, rest2) :=
        fun x hx => ih x (sizeOf_mem_list hx)
      have hflen : f ≥ (encItemsB l).length + rest.length + 1 := by
        have h1 := ctrHeader_length_pos 0x50 0x61 0x62 l.length
        rw [encBytes, List.length_append] at hF
        omega
      rw [encBytes, List.append_assoc]
      by_cases h15 : l.length ≤ 15
      · rw [ctrHeader, if_pos h15, List.singleton_append,
          decodeValue_fixlist hdd (by omega) (by omega),
          show 0x50 + l.length - 0x50 = l.length from by omega,
          decodeArray, if_neg (by omega),
          decodeItems_char c l hIH hitems d f rest hflen,
          tooDeep_list, canon_list]
        by_cases hdeep : anyDeepItems c.maxRecursionDepth l (d + 1) <;> simp [hdeep, hdd]
      · by_cases h16 : l.length ≤ 0xFFFF
        · rw [ctrHeader, if_neg h15, if_pos h16, List.cons_append,
            decodeValue_list16 hdd, readN_exact_of_length _ _ (beBytes_length 2 l.length),
            exceptBindOk, beToNat_beBytes2 (by omega),
            decodeArray, if_neg (by omega),
            decodeItems_char c l hIH hitems d f rest hflen,
            tooDeep_list, canon_list]
          by_cases hdeep : anyDeepItems c.maxRecursionDepth l (d + 1) <;> simp [hdeep, hdd]
        · rw [ctrHeader, if_neg h15, if_neg h16, List.cons_append,
            decodeValue_list32 hdd, readN_exact_of_length _ _ (beBytes_length 4 l.length),
            exceptBindOk, beToNat_beBytes4 (by omega),
            decodeArray, if_neg (by omega),
            decodeItems_char c l hIH hitems d f rest hflen,
            tooDeep_list, canon_list]
          by_cases hdeep : anyDeepItems c.maxRecursionDepth l (d + 1) <;> simp [hdeep, hdd]
    | map m =>
      rw [wfEnc, Bool.and_eq_true, decide_eq_true_eq] at hw
      obtain ⟨hcount, hentries⟩ := hw
      have hIH : ∀ e ∈ m, wfEnc c e.2 = true → ∀ (d2 F2 : Nat) (rest2 : List Nat),
          F2 ≥ (encBytes e.2).length + rest2.length + 1 →
          decodeValue c F2 (encBytes e.2 ++ rest2) d2
            = if tooDeep c.maxRecursionDepth e.2 d2 then .error .maxRecursionDepth
              else .ok (canon e.2, rest2) :=
        fun e he => ih e.2 (sizeOf_mem_entries (by rwa [show ((e.1, e.2) : List Nat × Value) = e from rfl]))
      have hflen : f ≥ (encEntriesB m).length + rest.length + 1 := by
        have h1 := ctrHeader_length_pos 0x70 0x81 0x82 m.length
        rw [encBytes, List.length_append] at hF
        omega
      rw [encBytes, List.append_assoc]
      by_cases h15 : m.length ≤ 15
      · rw [ctrHeader, if_pos h15, List.singleton_append,
          decodeValue_fixmap hdd (by omega) (by omega),
          show 0x70 + m.length - 0x70 = m.length from by omega,
          decodeMap, if_neg (by omega),
          decodeEntries_char c ⟨hS, hC⟩ m hIH hentries d f rest [] hflen,
          tooDeep_map, canon_map]
        by_cases hdeep : anyDeepEntries c.maxRecursionDepth m (d + 1) <;> simp [hdeep, hdd]
      · by_cases h16 : m.length ≤ 0xFFFF
        · rw [ctrHeader, if_neg h15, if_pos h16, List.cons_append,
            decodeValue_map16 hdd, readN_exact_of_length _ _ (beBytes_length 2 m.length),
            exceptBindOk, beToNat_beBytes2 (by omega),
            decodeMap, if_neg (by omega),
            decodeEntries_char c ⟨hS, hC⟩ m hIH hentries d f rest [] hflen,
            tooDeep_map, canon_map]
          by_cases hdeep : anyDeepEntries c.maxRecursionDepth m (d + 1) <;> simp [hdeep, hdd]
        · rw [ctrHeader, if_neg h15, if_neg h16, List.cons_append,
            decodeValue_map32 hdd, readN_exact_of_length _ _ (beBytes_length 4 m.length),
            exceptBindOk, beToNat_beBytes4 (by omega),
            decodeMap, if_neg (by omega),
            decodeEntries_char c ⟨hS, hC⟩ m hIH hentries d f rest [] hflen,
            tooDeep_map, canon_map]
          by_cases hdeep : anyDeepEntries c.maxRecursionDepth m (d + 1) <;> simp [hdeep, hdd]

/-- The encoder depth guard fires for every value once the depth is past
the maximum. -/
theorem encodeValue_depthGuard {c : Poculum} {d : Nat} (hdd : d > c.maxRecursionDepth)
    (v : Value) : encodeValue c v d = .error .maxRecursionDepth := by
  cases v <;> rw [encodeValue] <;> simp [hdd]

/-- Item loop of the encoder on well-formed items. -/
theorem encodeItems_char (c : Poculum) (l : List Value)
    (IH : ∀ v ∈ l, wfEnc c v = true → ∀ d : Nat,
      encodeValue c v d = if tooDeep c.maxRecursionDepth v d then .error .maxRecursionDepth
        else .ok (encBytes v)) :
    wfItems c l = true → ∀ d : Nat,
      encodeItems c l d
        = if anyDeepItems c.maxRecursionDepth l d then .error .maxRecursionDepth
          else .ok (encItemsB l) := by
  induction l with
  | nil =>
    intro _ d
    rw [encodeItems, anyDeepItems, encItemsB]
    simp
  | cons v vs ih =>
    intro hw d
    rw [wfItems] at hw
    simp only [Bool.and_eq_true] at hw
    rw [encodeItems, IH v (by simp) hw.1 d]
    by_cases hdeep : tooDeep c.maxRecursionDepth v d
    · rw [if_pos hdeep]
      simp only [exceptSeqBindError]
      rw [anyDeepItems]
      simp [hdeep]
    · rw [if_neg hdeep]
      simp only [exceptSeqBindOk]
      rw [ih (fun x hx => IH x (by simp [hx])) hw.2 d]
      by_cases hdeep2 : anyDeepItems c.maxRecursionDepth vs d
      · rw [if_pos hdeep2]
        rw [anyDeepItems]
        simp [hdeep, hdeep2]
      · rw [if_neg hdeep2]
        rw [anyDeepItems, encItemsB]
        simp [hdeep, hdeep2]

/-- Entry loop of the encoder on well-formed entries. -/
theorem encodeEntries_char (c : Poculum) (m : List (List Nat × Value))
    (IH : ∀ e ∈ m, wfEnc c e.2 = true → ∀ d : Nat,
      encodeValue c e.2 d = if tooDeep c.maxRecursionDepth e.2 d then .error .maxRecursionDepth
        else .ok (encBytes e.2)) :
    wfEntries c m = true → ∀ d : Nat,
      encodeEntries c m d
        = if anyDeepEntries c.maxRecursionDepth m d then .error .maxRecursionDepth
          else .ok (encEntriesB m) := by
  induction m with
  | nil =>
    intro _ d
    rw [encodeEntries, anyDeepEntries, encEntriesB]
    simp
  | cons e es ih =>
    obtain ⟨k, v⟩ := e
    intro hw d
    rw [wfEntries] at hw
    simp only [Bool.and_eq_true, decide_eq_true_eq] at hw
    obtain ⟨hk1, hk2, hwv, hwes⟩ := hw
    rw [encodeEntries, encodeString_ok hk1 hk2]
    simp only [exceptSeqBindOk]
    rw [IH (k, v) (by simp) hwv d]
    by_cases hdeep : tooDeep c.maxRecursionDepth v d
    · rw [if_pos hdeep]
      simp only [exceptSeqBindError]
      rw [anyDeepEntries]
      simp [hdeep]
    · rw [if_neg hdeep]
      simp only [exceptSeqBindOk]
      rw [ih (fun x hx => IH x (by simp [hx])) hwes d]
      by_cases hdeep2 : anyDeepEntries c.maxRecursionDepth es d
      · rw [if_pos hdeep2]
        rw [anyDeepEntries]
        simp [hdeep, hdeep2]
      · rw [if_neg hdeep2]
        rw [anyDeepEntries, encEntriesB]
        simp [hdeep, hdeep2, List.append_assoc]

/-- Master encoder characterization: on a well-formed value the encoder
fails with RecursionLimit exactly when the depth guard fires somewhere
(`tooDeep`), and otherwise emits `encBytes`. -/
theorem encode_char (c : Poculum) :
    ∀ (v : Value), wfEnc c v = true → ∀ d : Nat,
      encodeValue c v d
        = if tooDeep c.maxRecursionDepth v d then .error .maxRecursionDepth
          else .ok (encBytes v) := by
  refine Value.strongInd (fun v ih => ?_)
  intro hw d
  by_cases hdd : d > c.maxRecursionDepth
  · rw [encodeValue_depthGuard hdd v, tooDeep_of_depth hdd v]
    simp
  · cases v with
    | vnil =>
      rw [encodeValue, if_neg hdd, tooDeep_vnil, encBytes]
      simp [hdd]
    | vbool b =>
      rw [encodeValue, if_neg hdd, tooDeep_vbool, encBytes]
      simp [hdd]
    | u8 n =>
      rw [encodeValue, if_neg hdd, tooDeep_u8, encBytes]
      simp [hdd]
    | u16 n =>
      rw [encodeValue, if_neg hdd, tooDeep_u16, encBytes]
      simp [hdd]
    | u32 n =>
      rw [encodeValue, if_neg hdd, tooDeep_u32, encBytes]
      simp [hdd]
    | u64 n =>
      rw [encodeValue, if_neg hdd, tooDeep_u64, encBytes]
      simp [hdd]
    | i8 n =>
      rw [encodeValue, if_neg hdd, tooDeep_i8, encBytes]
      simp [hdd]
    | i16 n =>
      rw [encodeValue, if_neg hdd, tooDeep_i16, encBytes]
      simp [hdd]
    | i32 n =>
      rw [encodeValue, if_neg hdd, tooDeep_i32, encBytes]
      simp [hdd]
    | i64 n =>
      rw [encodeValue, if_neg hdd, tooDeep_i64, encBytes]
      simp [hdd]
    | f32 bits =>
      rw [encodeValue, if_neg hdd, tooDeep_f32, encBytes]
      simp [hdd]
    | f64 bits =>
      rw [encodeValue, if_neg hdd, tooDeep_f64, encBytes]
      simp [hdd]
    | str s =>
      rw [wfEnc, Bool.and_eq_true, decide_eq_true_eq] at hw
      rw [encodeValue, if_neg hdd, encodeString_ok hw.1 hw.2, tooDeep_str, encBytes]
      simp [hdd]
    | bytes b =>
      rw [encodeValue, if_neg hdd, encodeBytes_ok, tooDeep_bytes, encBytes]
      simp [hdd]
    | list l =>
      rw [wfEnc, Bool.and_eq_true, decide_eq_true_eq] at hw
      obtain ⟨hcount, hitems⟩ := hw
      have hIH : ∀ x ∈ l, wfEnc c x = true → ∀ d2 : Nat,
          encodeValue c x d2
            = if tooDeep c.maxRecursionDepth x d2 then .error .maxRecursionDepth
              else .ok (encBytes x) :=
        fun x hx => ih x (sizeOf_mem_list hx)
      rw [encodeValue, if_neg hdd, encodeArray, if_neg (by omega),
        encodeItems_char c l hIH hitems (d + 1), tooDeep_list, encBytes]
      by_cases hdeep : anyDeepItems c.maxRecursionDepth l (d + 1) <;> simp [hdeep, hdd]
    | map m =>
      rw [wfEnc, Bool.and_eq_true, decide_eq_true_eq] at hw
      obtain ⟨hcount, hentries⟩ := hw
      have hIH : ∀ e ∈ m, wfEnc c e.2 = true → ∀ d2 : Nat,
          encodeValue c e.2 d2
            = if tooDeep c.maxRecursionDepth e.2 d2 then .error .maxRecursionDepth
              else .ok (encBytes e.2) :=
        fun e he => ih e.2 (sizeOf_mem_entries (by rwa [show ((e.1, e.2) : List Nat × Value) = e from rfl]))
      rw [encodeValue, if_neg hdd, encodeMap, if_neg (by omega),
        encodeEntries_char c m hIH hentries (d + 1), tooDeep_map, encBytes]
      by_cases hdeep : anyDeepEntries c.maxRecursionDepth m (d + 1) <;> simp [hdeep, hdd]

/-! With pairwise-distinct keys the decoder's Go-map replay rebuilds the
entry list unchanged, so `canon` is the identity on values whose maps all
have unique keys. -/

theorem updEntry_not_mem {acc : List (List Nat × Value)} {k : List Nat} {v : Value}
    (h : k ∉ acc.map Prod.fst) : updEntry acc k v = acc ++ [(k, v)] := by
  induction acc with
  | nil => rw [updEntry]; rfl
  | cons e t ih =>
    obtain ⟨k2, v2⟩ := e
    simp only [List.map_cons, List.mem_cons] at h
    push_neg at h
    rw [updEntry, if_neg (fun he => h.1 he.symm), ih h.2]
    simp

theorem canonEntries_of_nodup :
    ∀ (m : List (List Nat × Value)) (acc : List (List Nat × Value)),
      (m.map Prod.fst).Nodup →
      (∀ k ∈ m.map Prod.fst, k ∉ acc.map Prod.fst) →
      (∀ e ∈ m, canon e.2 = e.2) →
      canonEntries m acc = acc ++ m := by
  intro m
  induction m with
  | nil =>
    intro acc _ _ _
    rw [canonEntries]
    simp
  | cons e es ih =>
    obtain ⟨k, v⟩ := e
    intro acc hnd hdisj hcanon
    simp only [List.map_cons, List.nodup_cons] at hnd
    rw [canonEntries, hcanon (k, v) (by simp),
      updEntry_not_mem (hdisj k (by simp))]
    rw [ih (acc ++ [(k, v)]) hnd.2 ?_ (fun e he => hcanon e (by simp [he]))]
    · simp
    · intro x hx
      simp only [List.map_append, List.mem_append, List.map_cons, List.map_nil,
        List.mem_singleton]
      push_neg
      exact ⟨hdisj x (by simp [hx]), fun hxk => hnd.1 (hxk ▸ hx)⟩

theorem canonItems_eq (l : List Value)
    (IH : ∀ x ∈ l, uniqKeys x = true → canon x = x) (h : uniqItems l = true) :
    canonItems l = l := by
  induction l with
  | nil => rw [canonItems]
  | cons v vs ih =>
    rw [uniqItems] at h
    simp only [Bool.and_eq_true] at h
    rw [canonItems, IH v (by simp) h.1, ih (fun x hx => IH x (by simp [hx])) h.2]

theorem uniqEntries_mem : ∀ {m : List (List Nat × Value)}, uniqEntries m = true →
    ∀ e ∈ m, uniqKeys e.2 = true := by
  intro m
  induction m with
  | nil => intro _ e he; cases he
  | cons x xs ih =>
    obtain ⟨k, v⟩ := x
    intro h e he
    rw [uniqEntries] at h
    simp only [Bool.and_eq_true] at h
    rcases List.mem_cons.mp he with h1 | h2
    · rw [h1]
      exact h.1
    · exact ih h.2 e h2

theorem canon_eq_self : ∀ v, uniqKeys v = true → canon v = v := by
  refine Value.strongInd (fun v ih => ?_)
  intro hu
  cases v with
  | vnil => rw [canon_vnil]
  | vbool b => rw [canon_vbool]
  | u8 n => rw [canon_u8]
  | u16 n => rw [canon_u16]
  | u32 n => rw [canon_u32]
  | u64 n => rw [canon_u64]
  | i8 n => rw [canon_i8]
  | i16 n => rw [canon_i16]
  | i32 n => rw [canon_i32]
  | i64 n => rw [canon_i64]
  | f32 bits => rw [canon_f32]
  | f64 bits => rw [canon_f64]
  | str s => rw [canon_str]
  | bytes b => rw [canon_bytes]
  | list l =>
    rw [uniqKeys] at hu
    rw [canon_list, canonItems_eq l (fun x hx => ih x (sizeOf_mem_list hx)) hu]
  | map m =>
    rw [uniqKeys] at hu
    simp only [Bool.and_eq_true, decide_eq_true_eq] at hu
    rw [canon_map, canonEntries_of_nodup m [] hu.1 (by simp)
      (fun e he => ih e.2 (sizeOf_mem_entries
          (by rwa [show ((e.1, e.2) : List Nat × Value) = e from rfl]))
        (uniqEntries_mem hu.2 e he))]
    simp

/-- C1 amended: for configurations whose string/container ceilings fit
the 32-bit wire length fields (true of both reference configurations),
every value constructible under the limits — numeric payloads in range,
strings valid UTF-8 and within maxStringBytes, byte blobs within the
ceiling and additionally nonempty, containers within maxContainerItems,
map keys unique, nesting within maxDepth — encodes successfully and
decodes back to exactly the same value (entry order included, which
subsumes comparing maps as unordered key/value sets). -/
theorem decode_dump_roundtrip (c : Poculum) (v : Value) (hsmall : smallLimits c)
    (hw : wfEnc c v = true) (hu : uniqKeys v = true)
    (hdepth : tooDeep c.maxRecursionDepth v 0 = false) :
    dump c v = .ok (encBytes v) ∧ load c (encBytes v) = .ok v := by
  constructor
  · rw [dump, encode_char c v hw 0, hdepth]
    simp
  · rw [load, if_neg (by simp [List.isEmpty_eq_true, encBytes_ne_nil v])]
    have hd := decode_encBytes_char c hsmall v hw 0 ((encBytes v).length + 1) []
      (by simp)
    simp only [List.append_nil] at hd
    rw [hd, hdepth]
    simp [canon_eq_self v hu]

theorem decode_dump_roundtrip_witness :
    smallLimits NewPoculum ∧
    wfEnc NewPoculum (Value.map [([97], .list [.u8 7]), ([98], .str [120])]) = true ∧
    uniqKeys (Value.map [([97], .list [.u8 7]), ([98], .str [120])]) = true ∧
    tooDeep NewPoculum.maxRecursionDepth
      (Value.map [([97], .list [.u8 7]), ([98], .str [120])]) 0 = false ∧
    (dump NewPoculum (Value.map [([97], .list [.u8 7]), ([98], .str [120])])
        = .ok (encBytes (Value.map [([97], .list [.u8 7]), ([98], .str [120])])) ∧
      load NewPoculum (encBytes (Value.map [([97], .list [.u8 7]), ([98], .str [120])]))
        = .ok (Value.map [([97], .list [.u8 7]), ([98], .str [120])])) := by
  have h1 : smallLimits NewPoculum := ⟨by decide, by decide⟩
  have h2 : wfEnc NewPoculum (Value.map [([97], .list [.u8 7]), ([98], .str [120])]) = true := by
    simp [wfEnc, wfItems, wfEntries, NewPoculum,
      show utf8Valid [97] = true from by decide, show utf8Valid [98] = true from by decide,
      show utf8Valid [120] = true from by decide]
  have h3 : uniqKeys (Value.map [([97], .list [.u8 7]), ([98], .str [120])]) = true := by
    simp [uniqKeys, uniqItems, uniqEntries]
  have h4 : tooDeep NewPoculum.maxRecursionDepth
      (Value.map [([97], .list [.u8 7]), ([98], .str [120])]) 0 = false := by
    simp [tooDeep_map, anyDeepEntries, anyDeepItems, tooDeep_list, tooDeep_u8, tooDeep_str,
      NewPoculum]
  exact ⟨h1, h2, h3, h4, decode_dump_roundtrip NewPoculum _ h1 h2 h3 h4⟩

/-- C5 amended: on a value satisfying every non-depth constraint, both
paths are governed by one criterion: the guard checks the counter at
each node before dispatching and the counter grows by exactly 1 per
List/Map level, so encode fails with RecursionLimit if and only if some
node (scalar leaf, or list item / map entry value) is visited at depth
maxDepth+1 (`tooDeep`), and decoding the encoded buffer fails with
RecursionLimit under exactly the same criterion.  A chain of containers
whose deepest container is empty at level maxDepth+1 is accepted by both
paths, which is the correction to the original claim. -/
theorem depth_limit_characterization (c : Poculum) (v : Value) (hsmall : smallLimits c)
    (hw : wfEnc c v = true) :
    encodeValue c v 0
      = (if tooDeep c.maxRecursionDepth v 0 then .error .maxRecursionDepth
         else .ok (encBytes v)) ∧
    load c (encBytes v)
      = (if tooDeep c.maxRecursionDepth v 0 then .error .maxRecursionDepth
         else .ok (canon v)) := by
  constructor
  · exact encode_char c v hw 0
  · rw [load, if_neg (by simp [List.isEmpty_eq_true, encBytes_ne_nil v])]
    have hd := decode_encBytes_char c hsmall v hw 0 ((encBytes v).length + 1) []
      (by simp)
    simp only [List.append_nil] at hd
    rw [hd]
    by_cases htd : tooDeep c.maxRecursionDepth v 0 <;> simp [htd]

theorem depth_limit_characterization_witness :
    smallLimits (WithLimits 0 10 10) ∧
    wfEnc (WithLimits 0 10 10) (Value.list [Value.vnil]) = true ∧
    (encodeValue (WithLimits 0 10 10) (Value.list [Value.vnil]) 0
        = (if tooDeep (WithLimits 0 10 10).maxRecursionDepth (Value.list [Value.vnil]) 0
           then .error .maxRecursionDepth
           else .ok (encBytes (Value.list [Value.vnil]))) ∧
      load (WithLimits 0 10 10) (encBytes (Value.list [Value.vnil]))
        = (if tooDeep (WithLimits 0 10 10).maxRecursionDepth (Value.list [Value.vnil]) 0
           then .error .maxRecursionDepth
           else .ok (canon (Value.list [Value.vnil])))) := by
  have h1 : smallLimits (WithLimits 0 10 10) := ⟨by decide, by decide⟩
  have h2 : wfEnc (WithLimits 0 10 10) (Value.list [Value.vnil]) = true := by
    simp [wfEnc, wfItems, WithLimits]
  exact ⟨h1, h2, depth_limit_characterization (WithLimits 0 10 10) _ h1 h2⟩

/-- C8: a buffer whose map header declares two entries with the same
string key decodes without any duplicate-key error; the repeated key is
bound to the value of its last occurrence in the stream, and the
resulting map holds 1 entry against the declared count of 2. -/
theorem decode_duplicate_keys_last_wins (c : Poculum) (k : List Nat) (va vb : Value)
    (hsmall : smallLimits c) (hk1 : utf8Valid k = true) (hk2 : k.length ≤ c.maxStringSize)
    (hwa : wfEnc c va = true) (hwb : wfEnc c vb = true)
    (hub : uniqKeys vb = true)
    (hda : tooDeep c.maxRecursionDepth va 1 = false)
    (hdb : tooDeep c.maxRecursionDepth vb 1 = false)
    (hcount : 2 ≤ c.maxContainerItems) :
    load c (encBytes (Value.map [(k, va), (k, vb)])) = .ok (Value.map [(k, vb)]) := by
  have hwm : wfEnc c (Value.map [(k, va), (k, vb)]) = true := by
    rw [wfEnc, wfEntries, wfEntries, wfEntries]
    simp [hk1, hk2, hwa, hwb, hcount]
  have htd : tooDeep c.maxRecursionDepth (Value.map [(k, va), (k, vb)]) 0 = false := by
    rw [tooDeep_map, anyDeepEntries, anyDeepEntries, anyDeepEntries]
    simp [hda, hdb]
  rw [load, if_neg (by simp [List.isEmpty_eq_true, encBytes_ne_nil])]
  have hd := decode_encBytes_char c hsmall _ hwm 0
    ((encBytes (Value.map [(k, va), (k, vb)])).length + 1) [] (by simp)
  simp only [List.append_nil] at hd
  rw [hd, htd]
  rw [canon_map, canonEntries, canonEntries, canonEntries, updEntry, updEntry, if_pos rfl]
  simp [canon_eq_self vb hub]

theorem decode_duplicate_keys_last_wins_witness :
    smallLimits NewPoculum ∧ utf8Valid [107] = true ∧
    ([107] : List Nat).length ≤ NewPoculum.maxStringSize ∧
    wfEnc NewPoculum (.u8 1) = true ∧ wfEnc NewPoculum (.u8 2) = true ∧
    uniqKeys (.u8 2) = true ∧
    tooDeep NewPoculum.maxRecursionDepth (.u8 1) 1 = false ∧
    tooDeep NewPoculum.maxRecursionDepth (.u8 2) 1 = false ∧
    2 ≤ NewPoculum.maxContainerItems ∧
    load NewPoculum (encBytes (Value.map [([107], .u8 1), ([107], .u8 2)]))
      = .ok (Value.map [([107], .u8 2)]) := by
  refine ⟨⟨by decide, by decide⟩, by decide, by decide, by simp [wfEnc], by simp [wfEnc],
    by simp [uniqKeys], by simp [tooDeep_u8, NewPoculum],
    by simp [tooDeep_u8, NewPoculum], by decide, ?_⟩
  exact decode_duplicate_keys_last_wins NewPoculum [107] (.u8 1) (.u8 2)
    ⟨by decide, by decide⟩ (by decide) (by decide) (by simp [wfEnc]) (by simp [wfEnc])
    (by simp [uniqKeys]) (by simp [tooDeep_u8, NewPoculum])
    (by simp [tooDeep_u8, NewPoculum]) (by decide)

/-! Decoding is insensitive to extra fuel and to bytes beyond what it
consumes: a successful decode of a buffer still succeeds, with the same
value and correspondingly extended remainder, on the buffer with
trailing bytes appended and any at-least-as-large fuel. -/

theorem readN_append {w : Nat} {input : List Nat} {p : List Nat × List Nat}
    (extra : List Nat) (h : readN w input = .ok p) :
    readN w (input ++ extra) = .ok (p.1, p.2 ++ extra) := by
  obtain ⟨a, b⟩ := p
  rw [readN] at h
  split at h
  · next hw =>
    simp only [Except.ok.injEq, Prod.mk.injEq] at h
    rw [readN, if_pos (by simp only [List.length_append]; omega),
      List.take_append_of_le_length hw, List.drop_append_of_le_length hw]
    simp only [Except.ok.injEq, Prod.mk.injEq]
    exact ⟨h.1, by rw [← h.2]⟩
  · cases h

theorem decodeString_append {L : Nat} {input : List Nat} {p : List Nat × List Nat}
    (extra : List Nat) (h : decodeString L input = .ok p) :
    decodeString L (input ++ extra) = .ok (p.1, p.2 ++ extra) := by
  obtain ⟨a, b⟩ := p
  rw [decodeString] at h
  split at h
  · next h0 =>
    simp only [Except.ok.injEq, Prod.mk.injEq] at h
    rw [decodeString, if_pos h0]
    simp only [Except.ok.injEq, Prod.mk.injEq]
    exact ⟨h.1, by rw [← h.2]⟩
  · next h0 =>
    split at h
    · cases h
    · next hlen =>
      split at h
      · cases h
      · next hutf =>
        simp only [Except.ok.injEq, Prod.mk.injEq] at h
        rw [decodeString, if_neg h0,
          if_neg (by simp only [List.length_append]; omega),
          List.take_append_of_le_length (by omega),
          if_neg hutf, List.drop_append_of_le_length (by omega)]
        simp only [Except.ok.injEq, Prod.mk.injEq]
        exact ⟨h.1, by rw [← h.2]⟩

theorem decodeBytes_append {L : Nat} {input : List Nat} {p : List Nat × List Nat}
    (extra : List Nat) (h : decodeBytes L input = .ok p) :
    decodeBytes L (input ++ extra) = .ok (p.1, p.2 ++ extra) := by
  obtain ⟨a, b⟩ := p
  rw [decodeBytes] at h
  split at h
  · cases h
  · next hemp =>
    split at h
    · cases h
    · next hlen =>
      simp only [Except.ok.injEq, Prod.mk.injEq] at h
      rw [decodeBytes,
        if_neg (by simp only [List.isEmpty_eq_true, List.append_eq_nil]
                   simp only [List.isEmpty_eq_true] at hemp
                   tauto),
        if_neg (by simp only [List.length_append]; omega),
        List.take_append_of_le_length (by omega),
        List.drop_append_of_le_length (by omega)]
      simp only [Except.ok.injEq, Prod.mk.injEq]
      exact ⟨h.1, by rw [← h.2]⟩

theorem mapReadN_extend (mk : List Nat → Value) {w : Nat} {r extra rest : List Nat} {v : Value}
    (h : (readN w r).map (fun p => (mk p.1, p.2)) = .ok (v, rest)) :
    (readN w (r ++ extra)).map (fun p => (mk p.1, p.2)) = .ok (v, rest ++ extra) := by
  cases hr : readN w r with
  | error e =>
    rw [hr, exceptMapError] at h
    cases h
  | ok p =>
    rw [hr, exceptMapOk] at h
    rw [readN_append extra hr, exceptMapOk]
    simp only [Except.ok.injEq, Prod.mk.injEq] at h ⊢
    exact ⟨h.1, by rw [← h.2]⟩

theorem mapDecodeString_extend {L : Nat} {r extra rest : List Nat} {v : Value}
    (h : (decodeString L r).map (fun p => (Value.str p.1, p.2)) = .ok (v, rest)) :
    (decodeString L (r ++ extra)).map (fun p => (Value.str p.1, p.2))
      = .ok (v, rest ++ extra) := by
  cases hr : decodeString L r with
  | error e =>
    rw [hr, exceptMapError] at h
    cases h
  | ok p =>
    rw [hr, exceptMapOk] at h
    rw [decodeString_append extra hr, exceptMapOk]
    simp only [Except.ok.injEq, Prod.mk.injEq] at h ⊢
    exact ⟨h.1, by rw [← h.2]⟩

theorem mapDecodeBytes_extend {L : Nat} {r extra rest : List Nat} {v : Value}
    (h : (decodeBytes L r).map (fun p => (Value.bytes p.1, p.2)) = .ok (v, rest)) :
    (decodeBytes L (r ++ extra)).map (fun p => (Value.bytes p.1, p.2))
      = .ok (v, rest ++ extra) := by
  cases hr : decodeBytes L r with
  | error e =>
    rw [hr, exceptMapError] at h
    cases h
  | ok p =>
    rw [hr, exceptMapOk] at h
    rw [decodeBytes_append extra hr, exceptMapOk]
    simp only [Except.ok.injEq, Prod.mk.injEq] at h ⊢
    exact ⟨h.1, by rw [← h.2]⟩

theorem decodeItemsD_extend (c : Poculum) (f g : Nat)
    (hP : ∀ (input extra : List Nat) (depth : Nat) (v : Value) (rest : List Nat),
      decodeValue c f input depth = .ok (v, rest) →
      decodeValue c g (input ++ extra) depth = .ok (v, rest ++ extra)) :
    ∀ (n : Nat) (input extra : List Nat) (depth : Nat) (vs : List Value) (rest : List Nat),
      decodeItemsD c f n input depth = .ok (vs, rest) →
      decodeItemsD c g n (input ++ extra) depth = .ok (vs, rest ++ extra) := by
  intro n
  induction n with
  | zero =>
    intro input extra depth vs rest h
    rw [decodeItemsD] at h ⊢
    simp only [Except.ok.injEq, Prod.mk.injEq] at h ⊢
    exact ⟨h.1, by rw [← h.2]⟩
  | succ n ih =>
    intro input extra depth vs rest h
    rw [decodeItemsD] at h ⊢
    cases hv : decodeValue c f input (depth + 1) with
    | error e =>
      rw [hv] at h
      simp at h
    | ok p =>
      obtain ⟨v1, r1⟩ := p
      rw [hv] at h
      rw [hP input extra (depth + 1) v1 r1 hv]
      simp only [exceptSeqBindOk] at h ⊢
      cases hl : decodeItemsD c f n r1 depth with
      | error e =>
        rw [hl] at h
        simp at h
      | ok q =>
        obtain ⟨vs1, r2⟩ := q
        rw [hl] at h
        rw [ih r1 extra depth vs1 r2 hl]
        simp only [exceptSeqBindOk] at h ⊢
        simp only [Except.ok.injEq, Prod.mk.injEq] at h ⊢
        exact ⟨h.1, by rw [← h.2]⟩

theorem decodeMapItems_extend (c : Poculum) (f g : Nat)
    (hP : ∀ (input extra : List Nat) (depth : Nat) (v : Value) (rest : List Nat),
      decodeValue c f input depth = .ok (v, rest) →
      decodeValue c g (input ++ extra) depth = .ok (v, rest ++ extra)) :
    ∀ (n : Nat) (input extra : List Nat) (depth : Nat)
      (acc res : List (List Nat × Value)) (rest : List Nat),
      decodeMapItems c f n input depth acc = .ok (res, rest) →
      decodeMapItems c g n (input ++ extra) depth acc = .ok (res, rest ++ extra) := by
  intro n
  induction n with
  | zero =>
    intro input extra depth acc res rest h
    rw [decodeMapItems] at h ⊢
    simp only [Except.ok.injEq, Prod.mk.injEq] at h ⊢
    exact ⟨h.1, by rw [← h.2]⟩
  | succ n ih =>
    intro input extra depth acc res rest h
    rw [decodeMapItems] at h ⊢
    cases hv : decodeValue c f input (depth + 1) with
    | error e =>
      rw [hv] at h
      simp at h
    | ok p =>
      obtain ⟨kv, r1⟩ := p
      rw [hv] at h
      rw [hP input extra (depth + 1) kv r1 hv]
      simp only [exceptSeqBindOk] at h ⊢
      cases kv with
      | str k =>
        cases hv2 : decodeValue c f r1 (depth + 1) with
        | error e =>
          rw [hv2] at h
          simp at h
        | ok q =>
          obtain ⟨v2, r2⟩ := q
          rw [hv2] at h
          rw [hP r1 extra (depth + 1) v2 r2 hv2]
          simp only [exceptSeqBindOk] at h ⊢
          exact ih r2 extra depth (updEntry acc k v2) res rest h
      | vnil => simp at h
      | vbool b => simp at h
      | u8 n2 => simp at h
      | u16 n2 => simp at h
      | u32 n2 => simp at h
      | u64 n2 => simp at h
      | i8 n2 => simp at h
      | i16 n2 => simp at h
      | i32 n2 => simp at h
      | i64 n2 => simp at h
      | f32 b2 => simp at h
      | f64 b2 => simp at h
      | bytes b2 => simp at h
      | list l2 => simp at h
      | map m2 => simp at h

theorem decodeArray_extend (c : Poculum) (f g : Nat)
    (hP : ∀ (input extra : List Nat) (depth : Nat) (v : Value) (rest : List Nat),
      decodeValue c f input depth = .ok (v, rest) →
      decodeValue c g (input ++ extra) depth = .ok (v, rest ++ extra))
    {L : Nat} {r extra rest : List Nat} {depth : Nat} {v : Value}
    (h : decodeArray c f L r depth = .ok (v, rest)) :
    decodeArray c g L (r ++ extra) depth = .ok (v, rest ++ extra) := by
  rw [decodeArray] at h ⊢
  split at h
  · cases h
  · next hcnt =>
    rw [if_neg hcnt]
    cases hi : decodeItemsD c f L r depth with
    | error e =>
      rw [hi, exceptMapError] at h
      cases h
    | ok q =>
      obtain ⟨vs, r2⟩ := q
      rw [hi, exceptMapOk] at h
      rw [decodeItemsD_extend c f g hP L r extra depth vs r2 hi, exceptMapOk]
      simp only [Except.ok.injEq, Prod.mk.injEq] at h ⊢
      exact ⟨h.1, by rw [← h.2]⟩

theorem decodeMap_extend (c : Poculum) (f g : Nat)
    (hP : ∀ (input extra : List Nat) (depth : Nat) (v : Value) (rest : List Nat),
      decodeValue c f input depth = .ok (v, rest) →
      decodeValue c g (input ++ extra) depth = .ok (v, rest ++ extra))
    {L : Nat} {r extra rest : List Nat} {depth : Nat} {v : Value}
    (h : decodeMap c f L r depth = .ok (v, rest)) :
    decodeMap c g L (r ++ extra) depth = .ok (v, rest ++ extra) := by
  rw [decodeMap] at h ⊢
  split at h
  · cases h
  · next hcnt =>
    rw [if_neg hcnt]
    cases hi : decodeMapItems c f L r depth [] with
    | error e =>
      rw [hi, exceptMapError] at h
      cases h
    | ok q =>
      obtain ⟨res, r2⟩ := q
      rw [hi, exceptMapOk] at h
      rw [decodeMapItems_extend c f g hP L r extra depth [] res r2 hi, exceptMapOk]
      simp only [Except.ok.injEq, Prod.mk.injEq] at h ⊢
      exact ⟨h.1, by rw [← h.2]⟩

theorem decodeValue_nilInput {c : Poculum} {f depth : Nat}
    (hd2 : ¬ depth > c.maxRecursionDepth) :
    decodeValue c (f + 1) [] depth = .error .insufficientData := by
  rw [decodeValue.eq_def]
  simp [hd2]

/-- Master extension: a successful decode still succeeds, unchanged
except for the remainder, after appending trailing bytes and enlarging
the fuel. -/
theorem decodeValue_extend (c : Poculum) :
    ∀ (f f2 : Nat), f ≤ f2 →
      ∀ (input extra : List Nat) (depth : Nat) (v : Value) (rest : List Nat),
        decodeValue c f input depth = .ok (v, rest) →
        decodeValue c f2 (input ++ extra) depth = .ok (v, rest ++ extra) := by
  intro f
  induction f with
  | zero =>
    intro f2 _ input extra depth v rest h
    rw [decodeValue] at h
    cases h
  | succ f ihf =>
    intro f2 hle input extra depth v rest h
    obtain ⟨g, rfl⟩ : ∃ g, f2 = g + 1 := ⟨f2 - 1, by omega⟩
    have hfg : f ≤ g := by omega
    have hP : ∀ (input2 extra2 : List Nat) (depth2 : Nat) (v2 : Value) (rest2 : List Nat),
        decodeValue c f input2 depth2 = .ok (v2, rest2) →
        decodeValue c g (input2 ++ extra2) depth2 = .ok (v2, rest2 ++ extra2) :=
      fun i2 e2 d2 v2 r2 => ihf g hfg i2 e2 d2 v2 r2
    by_cases hdd : depth > c.maxRecursionDepth
    · rw [decodeValue_depth hdd] at h
      cases h
    · cases input with
      | nil =>
        rw [decodeValue_nilInput hdd] at h
        cases h
      | cons t r =>
        rw [List.cons_append]
        by_cases hT1 : t = 0x01
        · subst hT1
          rw [decodeValue_u8 hdd] at h
          rw [decodeValue_u8 hdd]
          exact mapReadN_extend (fun bs => Value.u8 (beToNat bs)) h
        by_cases hT2 : t = 0x02
        · subst hT2
          rw [decodeValue_u16 hdd] at h
          rw [decodeValue_u16 hdd]
          exact mapReadN_extend (fun bs => Value.u16 (beToNat bs)) h
        by_cases hT3 : t = 0x03
        · subst hT3
          rw [decodeValue_u32 hdd] at h
          rw [decodeValue_u32 hdd]
          exact mapReadN_extend (fun bs => Value.u32 (beToNat bs)) h
        by_cases hT4 : t = 0x04
        · subst hT4
          rw [decodeValue_u64 hdd] at h
          rw [decodeValue_u64 hdd]
          exact mapReadN_extend (fun bs => Value.u64 (beToNat bs)) h
        by_cases hT5 : t = 0x11
        · subst hT5
          rw [decodeValue_i8 hdd] at h
          rw [decodeValue_i8 hdd]
          exact mapReadN_extend (fun bs => Value.i8 (fromTwos 8 (beToNat bs))) h
        by_cases hT6 : t = 0x12
        · subst hT6
          rw [decodeValue_i16 hdd] at h
          rw [decodeValue_i16 hdd]
          exact mapReadN_extend (fun bs => Value.i16 (fromTwos 16 (beToNat bs))) h
        by_cases hT7 : t = 0x13
        · subst hT7
          rw [decodeValue_i32 hdd] at h
          rw [decodeValue_i32 hdd]
          exact mapReadN_extend (fun bs => Value.i32 (fromTwos 32 (beToNat bs))) h
        by_cases hT8 : t = 0x14
        · subst hT8
          rw [decodeValue_i64 hdd] at h
          rw [decodeValue_i64 hdd]
          exact mapReadN_extend (fun bs => Value.i64 (fromTwos 64 (beToNat bs))) h
        by_cases hT9 : t = 0x21
        · subst hT9
          rw [decodeValue_f32 hdd] at h
          rw [decodeValue_f32 hdd]
          exact mapReadN_extend (fun bs => Value.f32 (beToNat bs)) h
        by_cases hT10 : t = 0x22
        · subst hT10
          rw [decodeValue_f64 hdd] at h
          rw [decodeValue_f64 hdd]
          exact mapReadN_extend (fun bs => Value.f64 (beToNat bs)) h
        by_cases hT11 : t = 0xA0
        · subst hT11
          rw [decodeValue_true hdd] at h
          rw [decodeValue_true hdd]
          simp only [Except.ok.injEq, Prod.mk.injEq] at h ⊢
          exact ⟨h.1, by rw [← h.2]⟩
        by_cases hT12 : t = 0xA1
        · subst hT12
          rw [decodeValue_false hdd] at h
          rw [decodeValue_false hdd]
          simp only [Except.ok.injEq, Prod.mk.injEq] at h ⊢
          exact ⟨h.1, by rw [← h.2]⟩
        by_cases hT13 : t = 0xA3
        · subst hT13
          rw [decodeValue_nil hdd] at h
          rw [decodeValue_nil hdd]
          simp only [Except.ok.injEq, Prod.mk.injEq] at h ⊢
          exact ⟨h.1, by rw [← h.2]⟩
        by_cases hT14 : 0x30 ≤ t ∧ t ≤ 0x3F
        · rw [decodeValue_fixstr hdd hT14.1 hT14.2] at h
          rw [decodeValue_fixstr hdd hT14.1 hT14.2]
          exact mapDecodeString_extend h
        by_cases hT15 : t = 0x41
        · subst hT15
          rw [decodeValue_str16 hdd] at h
          rw [decodeValue_str16 hdd]
          cases hr : readN 2 r with
          | error e =>
            rw [hr, exceptBindError] at h
            cases h
          | ok p =>
            rw [hr, exceptBindOk] at h
            rw [readN_append extra hr, exceptBindOk]
            exact mapDecodeString_extend h
        by_cases hT16 : t = 0x42
        · subst hT16
          rw [decodeValue_str32 hdd] at h
          rw [decodeValue_str32 hdd]
          cases hr : readN 4 r with
          | error e =>
            rw [hr, exceptBindError] at h
            cases h
          | ok p =>
            rw [hr, exceptBindOk] at h
            rw [readN_append extra hr, exceptBindOk]
            split at h
            · cases h
            · next hgt =>
              rw [if_neg hgt]
              exact mapDecodeString_extend h
        by_cases hT17 : 0x50 ≤ t ∧ t ≤ 0x5F
        · rw [decodeValue_fixlist hdd hT17.1 hT17.2] at h
          rw [decodeValue_fixlist hdd hT17.1 hT17.2]
          exact decodeArray_extend c f g hP h
        by_cases hT18 : t = 0x61
        · subst hT18
          rw [decodeValue_list16 hdd] at h
          rw [decodeValue_list16 hdd]
          cases hr : readN 2 r with
          | error e =>
            rw [hr, exceptBindError] at h
            cases h
          | ok p =>
            rw [hr, exceptBindOk] at h
            rw [readN_append extra hr, exceptBindOk]
            exact decodeArray_extend c f g hP h
        by_cases hT19 : t = 0x62
        · subst hT19
          rw [decodeValue_list32 hdd] at h
          rw [decodeValue_list32 hdd]
          cases hr : readN 4 r with
          | error e =>
            rw [hr, exceptBindError] at h
            cases h
          | ok p =>
            rw [hr, exceptBindOk] at h
            rw [readN_append extra hr, exceptBindOk]
            exact decodeArray_extend c f g hP h
        by_cases hT20 : 0x70 ≤ t ∧ t ≤ 0x7F
        · rw [decodeValue_fixmap hdd hT20.1 hT20.2] at h
          rw [decodeValue_fixmap hdd hT20.1 hT20.2]
          exact decodeMap_extend c f g hP h
        by_cases hT21 : t = 0x81
        · subst hT21
          rw [decodeValue_map16 hdd] at h
          rw [decodeValue_map16 hdd]
          cases hr : readN 2 r with
          | error e =>
            rw [hr, exceptBindError] at h
            cases h
          | ok p =>
            rw [hr, exceptBindOk] at h
            rw [readN_append extra hr, exceptBindOk]
            exact decodeMap_extend c f g hP h
        by_cases hT22 : t = 0x82
        · subst hT22
          rw [decodeValue_map32 hdd] at h
          rw [decodeValue_map32 hdd]
          cases hr : readN 4 r with
          | error e =>
            rw [hr, exceptBindError] at h
            cases h
          | ok p =>
            rw [hr, exceptBindOk] at h
            rw [readN_append extra hr, exceptBindOk]
            exact decodeMap_extend c f g hP h
        by_cases hT23 : t = 0x91
        · subst hT23
          rw [decodeValue_bytes8 hdd] at h
          rw [decodeValue_bytes8 hdd]
          cases hr : readN 1 r with
          | error e =>
            rw [hr, exceptBindError] at h
            cases h
          | ok p =>
            rw [hr, exceptBindOk] at h
            rw [readN_append extra hr, exceptBindOk]
            exact mapDecodeBytes_extend h
        by_cases hT24 : t = 0x92
        · subst hT24
          rw [decodeValue_bytes16 hdd] at h
          rw [decodeValue_bytes16 hdd]
          cases hr : readN 2 r with
          | error e =>
            rw [hr, exceptBindError] at h
            cases h
          | ok p =>
            rw [hr, exceptBindOk] at h
            rw [readN_append extra hr, exceptBindOk]
            exact mapDecodeBytes_extend h
        by_cases hT25 : t = 0x93
        · subst hT25
          rw [decodeValue_bytes32 hdd] at h
          rw [decodeValue_bytes32 hdd]
          cases hr : readN 4 r with
          | error e =>
            rw [hr, exceptBindError] at h
            cases h
          | ok p =>
            rw [hr, exceptBindOk] at h
            rw [readN_append extra hr, exceptBindOk]
            exact mapDecodeBytes_extend h
        rw [decodeValue.eq_def] at h
        simp only [hdd, hT1, hT2, hT3, hT4, hT5, hT6, hT7, hT8, hT9, hT10, hT11, hT12, hT13, hT14, hT15, hT16, hT17, hT18, hT19, hT20, hT21, hT22, hT23, hT24, hT25, if_true, if_false, ite_true, ite_false, if_neg, if_pos] at h
        cases h

/-- C9: when a buffer consists of one complete encoded value (a prefix
that decodes fully, leaving nothing) followed by arbitrary trailing
bytes, `load` returns the value decoded from the prefix with no error:
the trailing bytes are never examined and their presence is not
reported. -/
theorem load_ignores_trailing_bytes (c : Poculum) (p trail : List Nat) (v : Value)
    (hp : p ≠ []) (h : decodeValue c (p.length + 1) p 0 = .ok (v, [])) :
    load c (p ++ trail) = .ok v := by
  rw [load, if_neg (by simp [List.isEmpty_eq_true, List.append_eq_nil]
                       tauto)]
  have hext := decodeValue_extend c (p.length + 1) ((p ++ trail).length + 1)
    (by simp [List.length_append]) p trail 0 v [] h
  simp only [List.nil_append] at hext
  rw [hext, exceptMapOk]

theorem load_ignores_trailing_bytes_witness :
    ([0xA0] : List Nat) ≠ [] ∧
    decodeValue NewPoculum (([0xA0] : List Nat).length + 1) [0xA0] 0
      = .ok (Value.vbool true, []) ∧
    load NewPoculum ([0xA0] ++ [0xFF, 0x07]) = .ok (Value.vbool true) := by
  have h1 : ([0xA0] : List Nat) ≠ [] := by decide
  have h2 : decodeValue NewPoculum (([0xA0] : List Nat).length + 1) [0xA0] 0
      = .ok (Value.vbool true, []) := by
    simp [decodeValue, NewPoculum]
  exact ⟨h1, h2, load_ignores_trailing_bytes NewPoculum [0xA0] [0xFF, 0x07] _ h1 h2⟩
